import Mathlib

/-!
Shallow embedding of the arvisan-backend graph-abstraction core:
the pre-processed path records, the abstraction (collapsing) map, edge
deduplication, node pruning and containment projection of
`ProcessingService.formatToLPG`, the merge validator of
`PostProcessingService`, and the dependency-cycle projector of
`ViolationCyclicalDependenciesService`.
-/

namespace Arvisan

/-- Properties carried by a rendered node (`NodeData.properties`). -/
structure NodeProps where
  kind : String
  layer : String
  color : String
  depth : Int
  selected : String
  deriving Repr, DecidableEq

/-- Cytoscape node data (`entities/Node.ts` `NodeData`): id, label,
properties and the optional `parent` pointer set by containment projection. -/
structure NodeData where
  id : String
  label : String
  properties : NodeProps
  parent : Option String := none
  deriving Repr, DecidableEq

/-- A rendered node (`entities/Node.ts` `Node`). -/
structure Node where
  data : NodeData
  deriving Repr, DecidableEq

/-- Properties carried by a rendered edge: its integer weight. -/
structure EdgeProps where
  weight : Nat
  deriving Repr, DecidableEq

/-- Cytoscape edge data (`entities/Edge.ts` `EdgeData`). -/
structure EdgeData where
  id : String
  source : String
  target : String
  interaction : String
  properties : EdgeProps
  deriving Repr, DecidableEq

/-- A rendered edge (`entities/Edge.ts` `Edge`). -/
structure Edge where
  data : EdgeData
  deriving Repr, DecidableEq

/-- A raw Neo4j relationship (`INeo4jComponentRelationship`): element id,
start and end node element ids, and the relationship type. -/
structure Rel where
  elementId : String
  startNodeElementId : String
  endNodeElementId : String
  type : String
  deriving Repr, DecidableEq

/-- Raw Neo4j node fields used by the node formatter
(`Neo4jComponentNode`): element id, labels, and the properties
read by `formatNeo4jNodeToNodeData`. -/
structure N4jNode where
  elementId : String
  labels : List String
  simpleName : String
  kind : String
  color : String
  depth : Int
  deriving Repr, DecidableEq

/-- JavaScript `String.prototype.toLowerCase` on the ASCII relationship-type
strings the services compare (character-wise lowering). -/
def strToLower (s : String) : String :=
  String.mk (s.data.map Char.toLower)

/-- `GraphProcessingService.formatNeo4jNodeToNodeData` (in source):
format a raw Neo4j node to Cytoscape `NodeData`. -/
def formatNeo4jNodeToNodeData (node : N4jNode) (selectedId : Option String) : NodeData :=
  { id := node.elementId
    label := node.simpleName
    properties :=
      { kind := node.kind
        layer := node.labels.headD ""
        color := node.color
        depth := node.depth
        selected := if some node.elementId = selectedId then "true" else "false" }
    parent := none }

/-- `GraphProcessingService.formatNeo4jRelationshipToEdgeData` /
`GraphElementParserService.toEdgeData`: format a raw relationship to
Cytoscape `EdgeData` with weight 1 (per the source doc comment on
`getAllEdges`: "all having weight 1"). -/
def toEdgeData (edge : Rel) : EdgeData :=
  { id := edge.elementId
    source := edge.startNodeElementId
    target := edge.endNodeElementId
    interaction := strToLower edge.type
    properties := { weight := 1 } }

/-- Modelled from the spec: `Neo4jComponentPathWithChunks` (its class is not
under src/, only its uses). Per the spec's path-record invariant, a
pre-processed record decomposes into exactly three contiguous chunks:
leading containment edges, dependency edges, trailing containment edges,
together with the path's source and target nodes. -/
structure ComponentPath where
  source : N4jNode
  target : N4jNode
  containSourceEdges : List Rel
  dependencyEdges : List Rel
  containTargetEdges : List Rel
  deriving Repr, DecidableEq

/-- Modelled from the spec: the record's leading containment depth
(`record.sourceDepth`), the length of the leading containment chunk. -/
def ComponentPath.sourceDepth (r : ComponentPath) : Nat :=
  r.containSourceEdges.length

/-- Modelled from the spec: the record's trailing containment depth
(`record.targetDepth`), the length of the trailing containment chunk. -/
def ComponentPath.targetDepth (r : ComponentPath) : Nat :=
  r.containTargetEdges.length

/-- Modelled from the spec: `record.allEdges`, the record's full ordered
edge list (leading containment, dependency, trailing containment). -/
def ComponentPath.allEdges (r : ComponentPath) : List Rel :=
  r.containSourceEdges ++ r.dependencyEdges ++ r.containTargetEdges

/-- The elements removed by JavaScript `Array.prototype.splice(start, count)`
(nonnegative `count`), including its clamping of a negative `start`. -/
def spliceRemoved (l : List Rel) (start : Int) (count : Nat) : List Rel :=
  (l.drop
    (if start < 0 then ((l.length : Int) + start).toNat else min start.toNat l.length)).take
    count

/-- The elements kept by JavaScript `Array.prototype.splice(start, count)`:
the list with the removed run deleted in place. -/
def spliceKept (l : List Rel) (start : Int) (count : Nat) : List Rel :=
  l.take (if start < 0 then ((l.length : Int) + start).toNat else min start.toNat l.length) ++
    l.drop
      ((if start < 0 then ((l.length : Int) + start).toNat else min start.toNat l.length) + count)

/-! ### The replace map (JS `Map<string, string>`) -/

/-- The content of a JS `Map<string, string>` as an association list with
pairwise-distinct keys. `Map.prototype.set` stores `v` under `k`,
overwriting any value previously stored under `k`. -/
def mapSet (m : List (String × String)) (k v : String) : List (String × String) :=
  m.filter (fun p => p.1 != k) ++ [(k, v)]

/-- Replay a list of `Map.prototype.set` calls (in order) on an empty map. -/
def buildMap (l : List (String × String)) : List (String × String) :=
  l.foldl (fun m p => mapSet m p.1 p.2) []

/-- `Map.prototype.get` with the identity as default: how the services
substitute an id through the abstraction map (`replaceMap.has` guarding
`replaceMap.get`). -/
def applyMap (m : List (String × String)) (id : String) : String :=
  (List.lookup id m).getD id

/-! ### ProcessingService (abstraction engine) -/

/-- `addToReplaceMap` inside `getAbstractionMap`: a deleted run contributes,
for every deleted edge, the entry sending its end-node id to the start-node
id of the run's first deleted edge; an empty run contributes nothing. -/
def runInsertions (deletedEdges : List Rel) : List (String × String) :=
  match deletedEdges with
  | [] => []
  | first :: _ =>
    deletedEdges.map (fun edge => (edge.endNodeElementId, first.startNodeElementId))

/-- The `Map.set` calls `getAbstractionMap` performs for one record:
`containsTooDeep = max(0, sourceDepth - maxDepth)` (the `Nat` subtraction
truncates at 0 exactly like `Math.max(0, ...)`); the leading containment
chunk is spliced at `maxDepth`, the trailing one at
`targetDepth - containsTooDeep`, each removing `containsTooDeep` edges, and
each removed run is added to the replace map (source run first). -/
def recordInsertions (r : ComponentPath) (maxDepth : Nat) : List (String × String) :=
  let containsTooDeep := r.sourceDepth - maxDepth
  runInsertions (spliceRemoved r.containSourceEdges (maxDepth : Int) containsTooDeep) ++
    runInsertions
      (spliceRemoved r.containTargetEdges ((r.targetDepth : Int) - (containsTooDeep : Int))
        containsTooDeep)

/-- The record after `getAbstractionMap`'s two `splice` calls mutated its
containment chunks in place (the "already remove the too-deep nodes" part). -/
def trimRecord (r : ComponentPath) (maxDepth : Nat) : ComponentPath :=
  let containsTooDeep := r.sourceDepth - maxDepth
  { r with
    containSourceEdges := spliceKept r.containSourceEdges (maxDepth : Int) containsTooDeep
    containTargetEdges :=
      spliceKept r.containTargetEdges ((r.targetDepth : Int) - (containsTooDeep : Int))
        containsTooDeep }

/-- `ProcessingService.getAbstractionMap`: fold every record's insertions,
in record order, into one replace map. -/
def getAbstractionMap (records : List ComponentPath) (maxDepth : Nat) :
    List (String × String) :=
  buildMap (records.flatMap (fun r => recordInsertions r maxDepth))

/-- Substitute a relationship's endpoints through the abstraction map
(the loop body of `applyAbstraction`). -/
def rewriteRel (m : List (String × String)) (e : Rel) : Rel :=
  { e with
    startNodeElementId := applyMap m e.startNodeElementId
    endNodeElementId := applyMap m e.endNodeElementId }

/-- `ProcessingService.applyAbstraction`: rewrite every record's dependency
edges through the abstraction map. -/
def applyAbstraction (records : List ComponentPath) (m : List (String × String)) :
    List ComponentPath :=
  records.map (fun r => { r with dependencyEdges := r.dependencyEdges.map (rewriteRel m) })

/-- First-occurrence deduplication by a string key, with the `seen` list
accumulated exactly like the services' `seenNodes` / `seenEdges` arrays. -/
def dedupByKey {α : Type} (key : α → String) : List α → List String → List α
  | [], _ => []
  | x :: xs, seen =>
    if key x ∈ seen then dedupByKey key xs seen
    else x :: dedupByKey key xs (key x :: seen)

/-- `PreProcessingService.getAllNodes`: one `Node` per distinct source/target
element id, first occurrence wins, in stream order. -/
def getAllNodes (records : List ComponentPath) (selectedId : Option String) : List Node :=
  (dedupByKey N4jNode.elementId (records.flatMap (fun r => [r.source, r.target])) []).map
    (fun n => Node.mk (formatNeo4jNodeToNodeData n selectedId))

/-- `ProcessingService.getAllEdges`: one weight-1 `Edge` per distinct
relationship element id across all records, first occurrence wins. -/
def getAllEdges (records : List ComponentPath) : List Edge :=
  (dedupByKey Rel.elementId (records.flatMap ComponentPath.allEdges) []).map
    (fun r => Edge.mk (toEdgeData r))

/-- Add `w` to an edge's weight (the in-place
`newEdges[index].data.properties.weight += edge.data.properties.weight`). -/
def addWeight (e : Edge) (w : Nat) : Edge :=
  { data := { e.data with properties := { weight := e.data.properties.weight + w } } }

/-- One step of `mergeDuplicateEdges`'s reduce: add the edge's weight to the
first accumulated edge with the same source and target, else append it. -/
def mergeInto : List Edge → Edge → List Edge
  | [], edge => [edge]
  | e :: es, edge =>
    if e.data.source = edge.data.source ∧ e.data.target = edge.data.target then
      addWeight e edge.data.properties.weight :: es
    else
      e :: mergeInto es edge

/-- `ProcessingService.mergeDuplicateEdges`: merge edges sharing
(source, target), summing weights. -/
def mergeDuplicateEdges (edges : List Edge) : List Edge :=
  edges.foldl mergeInto []

/-- `ProcessingService.filterNodesByEdges`: keep only nodes that are the
start or end point of an edge. -/
def filterNodesByEdges (nodes : List Node) (edges : List Edge) : List Node :=
  let nodesOnPaths : List String :=
    dedupByKey (fun s => s) (edges.flatMap (fun e => [e.data.source, e.data.target])) []
  nodes.filter (fun n => nodesOnPaths.contains n.data.id)

/-- `ProcessingService.filterSelfEdges`: remove all edges whose source and
target coincide. -/
def filterSelfEdges (edges : List Edge) : List Edge :=
  edges.filter (fun e => e.data.source != e.data.target)

/-- Set the parent of the first node whose id is `targetId`
(`nodesCopy.find(...)` followed by the in-place `parent` assignment). -/
def setParentFirst (nodes : List Node) (targetId parentId : String) : List Node :=
  match nodes with
  | [] => []
  | n :: ns =>
    if n.data.id = targetId then { data := { n.data with parent := some parentId } } :: ns
    else n :: setParentFirst ns targetId parentId

/-- `ProcessingService.addParentRelationship`: replace every given edge with a
parent pointer on its target node. -/
def addParentRelationship (nodes : List Node) (parentEdges : List Edge) : List Node :=
  parentEdges.foldl (fun ns e => setParentFirst ns e.data.target e.data.source) nodes

/-- `ProcessingService.replaceEdgeWithParentRelationship`: split off the edges
with the given interaction, turn them into parent pointers, and return the
remaining (dependency) edges. -/
def replaceEdgeWithParentRelationship (nodes : List Node) (edges : List Edge)
    (relationship : String) : List Node × List Edge :=
  let containEdges := edges.filter (fun e => e.data.interaction == relationship)
  let dependencyEdges := edges.filter (fun e => e.data.interaction != relationship)
  (addParentRelationship nodes containEdges, dependencyEdges)

/-- The rendered graph (`entities/Graph.ts`). -/
structure Graph where
  name : String
  nodes : List Node
  edges : List Edge
  deriving Repr, DecidableEq

/-- `BasicGraphFilterOptions`: the depth cutoff and the self-edge toggle;
`none` models an omitted (`undefined`) option. -/
structure BasicGraphFilterOptions where
  maxDepth : Option Nat := none
  selfEdges : Option Bool := none
  deriving Repr, DecidableEq

/-- The records `formatToLPG` hands to `getAllEdges`: unchanged when no depth
cutoff is given; otherwise trimmed by `getAbstractionMap`'s splices and
rewritten by `applyAbstraction`. -/
def processedRecords (records : List ComponentPath) : Option Nat → List ComponentPath
  | none => records
  | some d => applyAbstraction (records.map (fun r => trimRecord r d)) (getAbstractionMap records d)

/-- The deduplicated edge list `formatToLPG` builds
(`mergeDuplicateEdges(getAllEdges(filteredRecords))`). -/
def mergedEdges (records : List ComponentPath) (md : Option Nat) : List Edge :=
  mergeDuplicateEdges (getAllEdges (processedRecords records md))

/-- The node pruning and containment projection of `formatToLPG`: nodes kept
by `filterNodesByEdges`, then `replaceEdgeWithParentRelationship` with the
`contains` interaction. -/
def lpgSplit (records : List ComponentPath) (selectedId : Option String) (md : Option Nat) :
    List Node × List Edge :=
  replaceEdgeWithParentRelationship
    (filterNodesByEdges (getAllNodes records selectedId) (mergedEdges records md))
    (mergedEdges records md) "contains"

/-- `ProcessingService.formatToLPG` composed with its preprocessor's node
extraction: the abstraction engine from pre-processed records to the rendered
graph. The self-edge filter runs only when `selfEdges` is exactly `false`. -/
def formatToLPG (records : List ComponentPath) (selectedId : Option String) (name : String)
    (options : BasicGraphFilterOptions) : Graph :=
  let split := lpgSplit records selectedId options.maxDepth
  { name := name
    nodes := split.1
    edges := if options.selfEdges = some false then filterSelfEdges split.2 else split.2 }

/-! ### GraphProcessingService.getAbstractionMap (chunked variant with the
direction flag) -/

/-- `containsSourceDepth` / `containsTargetDepth`: the chunk's length when its
first relationship's type is `contains` (case-insensitively), else 0. -/
def chunkDepth (chunk : List Rel) : Nat :=
  match chunk.head? with
  | some e => if strToLower e.type = "contains" then chunk.length else 0
  | none => 0

/-- The `Map.set` calls `GraphProcessingService.getAbstractionMap` performs
for one record's chunk list. `chunks[0]` is spliced first and
`chunks[chunks.length - 1]` second; when the record has a single chunk the
two splices hit the same array, so the second operates on the remainder left
by the first. In either direction the source run is added to the replace map
before the target run. -/
def recordInsertionsChunks (chunks : List (List Rel)) (maxDepth : Nat)
    (reverseDirection : Bool) : List (String × String) :=
  match chunks with
  | [] => []
  | [c] =>
    let containsSourceDepth := chunkDepth c
    let containsTargetDepth := chunkDepth c
    if !reverseDirection then
      let containsTooDeep := containsSourceDepth - maxDepth
      let deletedSource := spliceRemoved c (maxDepth : Int) containsTooDeep
      let c' := spliceKept c (maxDepth : Int) containsTooDeep
      let deletedTarget :=
        spliceRemoved c' ((containsTargetDepth : Int) - (containsTooDeep : Int)) containsTooDeep
      runInsertions deletedSource ++ runInsertions deletedTarget
    else
      let containsTooDeep := containsTargetDepth - maxDepth
      let deletedSource :=
        spliceRemoved c ((containsSourceDepth : Int) - (containsTooDeep : Int)) containsTooDeep
      let c' := spliceKept c ((containsSourceDepth : Int) - (containsTooDeep : Int)) containsTooDeep
      let deletedTarget := spliceRemoved c' (maxDepth : Int) containsTooDeep
      runInsertions deletedSource ++ runInsertions deletedTarget
  | c0 :: c1 :: rest =>
    let clast := (c1 :: rest).getLast (by simp)
    let containsSourceDepth := chunkDepth c0
    let containsTargetDepth := chunkDepth clast
    if !reverseDirection then
      let containsTooDeep := containsSourceDepth - maxDepth
      let deletedSource := spliceRemoved c0 (maxDepth : Int) containsTooDeep
      let deletedTarget :=
        spliceRemoved clast ((containsTargetDepth : Int) - (containsTooDeep : Int)) containsTooDeep
      runInsertions deletedSource ++ runInsertions deletedTarget
    else
      let containsTooDeep := containsTargetDepth - maxDepth
      let deletedSource :=
        spliceRemoved c0 ((containsSourceDepth : Int) - (containsTooDeep : Int)) containsTooDeep
      let deletedTarget := spliceRemoved clast (maxDepth : Int) containsTooDeep
      runInsertions deletedSource ++ runInsertions deletedTarget

/-- `GraphProcessingService.getAbstractionMap` (the chunked variant taking
`reverseDirection`): fold every record's insertions into one replace map. -/
def getAbstractionMapChunks (records : List (List (List Rel))) (maxDepth : Nat)
    (reverseDirection : Bool) : List (String × String) :=
  buildMap (records.flatMap (fun chunks => recordInsertionsChunks chunks maxDepth reverseDirection))

/-! ### PostProcessingService.validateGraph -/

/-- The merged graph the validator receives: nodes are a `MapSet` keyed by the
node's id, modelled as the list of its values (so `keys()` is the list of the
nodes' ids), together with the edge list. -/
structure IntermediateGraph where
  name : String
  nodes : List Node
  edges : List Edge
  deriving Repr, DecidableEq

/-- The id list `[...graph.nodes.keys()]` of the merged node set. -/
def nodeKeys (g : IntermediateGraph) : List String :=
  g.nodes.map (fun n => n.data.id)

/-- `validateGraph`'s masking map: a known endpoint id is replaced by the
empty-string sentinel, an unknown one is kept. -/
def maskEdge (nodeIds : List String) (e : Edge) : Edge :=
  { data := { e.data with
      source := if nodeIds.contains e.data.source then "" else e.data.source
      target := if nodeIds.contains e.data.target then "" else e.data.target } }

/-- `validateGraph`'s `invalidEdges`: the masked edges in which at least one
endpoint survived the masking. -/
def invalidEdges (g : IntermediateGraph) : List Edge :=
  (g.edges.map (maskEdge (nodeKeys g))).filter
    (fun e => e.data.source != "" || e.data.target != "")

/-- The message `validateGraph` renders for one masked invalid edge. -/
def invalidEdgeMessage (e : Edge) : String :=
  if e.data.source = "" then
    "Edge '" ++ e.data.id ++ "': unknown target '" ++ e.data.target ++ "'"
  else if e.data.target = "" then
    "Edge '" ++ e.data.id ++ "': unknown source '" ++ e.data.source ++ "'"
  else
    "Edge '" ++ e.data.id ++ "': unknown source '" ++ e.data.source ++ "' and target '"
      ++ e.data.target ++ "'"

/-- `PostProcessingService.validateGraph`: return the graph unchanged when
every masked edge lost both endpoints, else throw one error joining the
per-edge messages. -/
def validateGraph (g : IntermediateGraph) : Except String IntermediateGraph :=
  if invalidEdges g = [] then Except.ok g
  else
    Except.error
      ("Graph '" ++ g.name ++ "' is invalid due to the following edges: "
        ++ String.intercalate "; " ((invalidEdges g).map invalidEdgeMessage))

/-! ### ViolationCyclicalDependenciesService -/

/-- Modelled from the spec: a rendered component node as seen by the
violation projector (`Neo4jComponentNode`, whose entity class is not under
src/): its raw node fields plus the optional back-reference to the original
node it was lifted from. -/
structure VNode where
  core : N4jNode
  originalNodeBeforeLifting : Option N4jNode := none
  deriving Repr, DecidableEq

/-- Modelled from the spec: a rendered dependency relationship
(`Neo4jDependencyRelationship`, whose entity class is not under src/):
element id and denormalized start/end nodes. -/
structure DepRel where
  elementId : String
  startNode : N4jNode
  endNode : N4jNode
  deriving Repr, DecidableEq

/-- `ElementParserService.toNodeData` as used by the violation projector:
format a raw node with no selection highlighting. -/
def toNodeDataV (n : N4jNode) : NodeData :=
  formatNeo4jNodeToNodeData n none

/-- Modelled from the spec: `MapSet.getOriginal` on the rendered dependency
set — look up the edge stored under the given element id. -/
def findDependency (deps : List DepRel) (id : String) : Option DepRel :=
  deps.find? (fun r => r.elementId == id)

/-- Modelled from the spec: `MapSet.has` on the rendered dependency set. -/
def depsHas (deps : List DepRel) (id : String) : Bool :=
  (findDependency deps id).isSome

/-- Modelled from the spec: `MapSet.get` on the rendered node set — look up
the node stored under the given element id. -/
def findNode (nodes : List VNode) (id : String) : Option VNode :=
  nodes.find? (fun n => n.core.elementId == id)

/-- A cycle path step (`ExtendedSimpleEdgeData`): edge id, endpoint ids and
denormalized endpoint node data. -/
structure ExtSimpleEdge where
  id : String
  source : String
  target : String
  sourceNode : NodeData
  targetNode : NodeData
  deriving Repr, DecidableEq

/-- A raw dependency cycle (`entities/violations/DependencyCycle.ts`):
anchor node, ordered path, length. -/
structure DependencyCycle where
  node : NodeData
  path : List ExtSimpleEdge
  length : Nat
  deriving Repr, DecidableEq

/-- A rendered cycle annotation (`DependencyCycleRender`): the cycle plus its
key and the accumulated pre-abstraction cycles. -/
structure DependencyCycleRender where
  node : NodeData
  path : List ExtSimpleEdge
  length : Nat
  id : String
  actualCycles : List DependencyCycle
  deriving Repr, DecidableEq

/-- `cycleIndex`: the cycle key, anchor id followed by the joined path edge
ids. -/
def cycleIndex (nodeId : String) (path : List ExtSimpleEdge) : String :=
  nodeId ++ "--" ++ String.intercalate "-" (path.map (fun p => p.id))

/-- The edge-resolution step of `extractAndAbstractDependencyCycles` (the
body of the first `dep.path.map`). When an edge with the same id exists in
the rendered dependency set, its id and endpoint ids are adopted; the source
says `toNodeData(existingEdge.startNode)` for BOTH `sourceNode` and
`targetNode` (ViolationCyclicalDependenciesService.ts line 96), which this
embedding reproduces verbatim. Otherwise each endpoint is resolved
independently through the node set, preferring the lifted-from
back-reference, and left unchanged when the lookup fails. -/
def resolveCycleEdge (deps : List DepRel) (nodes : List VNode) (d : ExtSimpleEdge) :
    ExtSimpleEdge :=
  match findDependency deps d.id with
  | some existingEdge =>
    { d with
      id := existingEdge.elementId
      source := existingEdge.startNode.elementId
      sourceNode := toNodeDataV existingEdge.startNode
      target := existingEdge.endNode.elementId
      targetNode := toNodeDataV existingEdge.startNode }
  | none =>
    let d1 :=
      match (findNode nodes d.source).map (fun n => n.originalNodeBeforeLifting.getD n.core) with
      | some sn => { d with source := sn.elementId, sourceNode := toNodeDataV sn }
      | none => d
    match (findNode nodes d.target).map (fun n => n.originalNodeBeforeLifting.getD n.core) with
    | some tn => { d1 with target := tn.elementId, targetNode := toNodeDataV tn }
    | none => d1

/-- The self-edge collapse filter: keep the first step when every step of the
rewritten path is a self edge, else keep exactly the non-self steps. -/
def collapseSelfEdges (path : List ExtSimpleEdge) : List ExtSimpleEdge :=
  (path.enum.filter (fun ie =>
    if ie.1 = 0 ∧ path.all (fun e2 => e2.source == e2.target) then true
    else ie.2.source != ie.2.target)).map (fun ie => ie.2)

/-- The per-cycle body of `extractAndAbstractDependencyCycles`'s first map:
resolve every path step, collapse self edges, and re-anchor the annotation on
the first rewritten step's source node (kept as the raw anchor when the path
is empty, in which case the cycle is never realized). -/
def processCycle (deps : List DepRel) (nodes : List VNode) (dep : DependencyCycle) :
    DependencyCycleRender :=
  let newPath := dep.path.map (resolveCycleEdge deps nodes)
  { node :=
      match newPath.head? with
      | some e => e.sourceNode
      | none => dep.node
    path := collapseSelfEdges newPath
    length := dep.length
    id := cycleIndex dep.node.id dep.path
    actualCycles := [dep] }

/-- One step of the final merge reduce: concatenate the cycle's
`actualCycles` onto the first accumulated annotation with the same id, else
append the annotation. -/
def mergeAddCycles : List DependencyCycleRender → DependencyCycleRender →
    List DependencyCycleRender
  | [], d => [d]
  | v :: vs, d =>
    if v.id == d.id then { v with actualCycles := v.actualCycles ++ d.actualCycles } :: vs
    else v :: mergeAddCycles vs d

/-- `ViolationCyclicalDependenciesService.extractAndAbstractDependencyCycles`:
process every raw cycle, keep only cycles with at least one path step whose
id is in the rendered dependency set, regenerate each key from the rewritten
path, and merge annotations sharing a key. -/
def extractAndAbstractDependencyCycles (cycles : List DependencyCycle)
    (deps : List DepRel) (nodes : List VNode) : List DependencyCycleRender :=
  ((((cycles.map (processCycle deps nodes)).filter
      (fun d => d.path.any (fun p => depsHas deps p.id))).map
      (fun d => { d with id := cycleIndex d.node.id d.path })).foldl mergeAddCycles [])

/-- The (source, target) pair of a rendered edge. -/
def edgePair (e : Edge) : String × String :=
  (e.data.source, e.data.target)

/-- The non-weight content of a rendered edge: id, source, target,
interaction. -/
def edgeShape (e : Edge) : String × String × String × String :=
  (e.data.id, e.data.source, e.data.target, e.data.interaction)

/-- Total weight carried by the edges with a given (source, target) pair. -/
def pairWeight (l : List Edge) (p : String × String) : Nat :=
  ((l.filter (fun e => decide (edgePair e = p))).map
    (fun e => e.data.properties.weight)).sum

/-- The number of distinct raw-edge element ids across the records whose
formatted edge has the given (source, target) pair. -/
def distinctIdCount (records : List ComponentPath) (p : String × String) : Nat :=
  ((((records.flatMap ComponentPath.allEdges).filter
    (fun r => decide (edgePair (Edge.mk (toEdgeData r)) = p))).map Rel.elementId).dedup).length

/-- Edge streams are id-coherent when equal element ids carry equal
relationship records (true of real Neo4j data, where the element id is the
relationship's identity). -/
def IdCoherent (rels : List Rel) : Prop :=
  ∀ a ∈ rels, ∀ b ∈ rels, a.elementId = b.elementId → a = b

/-- All `Map.set` calls the abstraction-map construction performs for a
record list at the given (optional) depth cutoff, in order. -/
def mapInsertions (records : List ComponentPath) : Option Nat → List (String × String)
  | none => []
  | some d => records.flatMap (fun r => recordInsertions r d)

/-- The relationship stream `getAllEdges` consumes: all edges of the
(possibly trimmed and rewritten) records, in order. -/
def edgeStream (records : List ComponentPath) (md : Option Nat) : List Rel :=
  (processedRecords records md).flatMap ComponentPath.allEdges

/-- A rendered edge's (source, target, weight) content. -/
def stwOf (e : Edge) : String × String × Nat :=
  (e.data.source, e.data.target, e.data.properties.weight)

/-! ### Specification-side definitions (for refinement comparisons) -/

/-- The offending edges of a merged graph, per the specification: the edges
whose source or target id is absent from the merged node set. -/
def offendingEdges (g : IntermediateGraph) : List Edge :=
  g.edges.filter (fun e =>
    !((nodeKeys g).contains e.data.source) || !((nodeKeys g).contains e.data.target))

/-- The message the specification expects for one offending edge: its id and
exactly the endpoint(s) missing from the node set. -/
def offendingDescriptor (nodeIds : List String) (e : Edge) : String :=
  if nodeIds.contains e.data.source then
    "Edge '" ++ e.data.id ++ "': unknown target '" ++ e.data.target ++ "'"
  else if nodeIds.contains e.data.target then
    "Edge '" ++ e.data.id ++ "': unknown source '" ++ e.data.source ++ "'"
  else
    "Edge '" ++ e.data.id ++ "': unknown source '" ++ e.data.source ++ "' and target '"
      ++ e.data.target ++ "'"

/-- The single fatal failure the specification expects: one message
enumerating every offending edge with its missing endpoint(s). -/
def validationFailureMessage (g : IntermediateGraph) : String :=
  "Graph '" ++ g.name ++ "' is invalid due to the following edges: "
    ++ String.intercalate "; " ((offendingEdges g).map (offendingDescriptor (nodeKeys g)))

/-- The abstraction-map rule exactly as the claim under scrutiny words it:
if the leading containment chunk is longer than `maxDepth`, the edges from
position `maxDepth` onward are deleted, and symmetrically the trailing
containment chunk deletes its own excess beyond the cutoff; every deleted
edge's end-node id maps to the start-node id of its run's first deleted
edge. -/
def claimRuleInsertions (chunks : List (List Rel)) (maxDepth : Nat) :
    List (String × String) :=
  let c0 := chunks.headD []
  let cl := chunks.getLastD []
  runInsertions (if 0 < chunkDepth c0 then c0.drop maxDepth else []) ++
    runInsertions (if 0 < chunkDepth cl then cl.drop maxDepth else [])

/-- The replace map the claim's rule would produce. -/
def claimRuleMap (chunks : List (List Rel)) (maxDepth : Nat) : List (String × String) :=
  buildMap (claimRuleInsertions chunks maxDepth)

/-- The amended abstraction-map rule: with the direction flag unset, the
leading containment chunk deletes everything from position `maxDepth` onward,
and the trailing chunk loses exactly that many (the leading excess) edges
from its end; with the flag set the roles are swapped. Every deleted edge's
end-node id maps to the start-node id of its run's first deleted edge. -/
def amendedRuleInsertions (chunks : List (List Rel)) (maxDepth : Nat)
    (reverseDirection : Bool) : List (String × String) :=
  let c0 := chunks.headD []
  let cl := chunks.getLastD []
  if !reverseDirection then
    let excess := chunkDepth c0 - maxDepth
    runInsertions (if 0 < chunkDepth c0 then c0.drop maxDepth else []) ++
      runInsertions (cl.drop (cl.length - excess))
  else
    let excess := chunkDepth cl - maxDepth
    runInsertions (c0.drop (c0.length - excess)) ++
      runInsertions (if 0 < chunkDepth cl then cl.drop maxDepth else [])

/-! ### Concrete instances used by counterexamples and witnesses -/

/-- A dependency relationship literal. -/
def relD (i s t : String) : Rel :=
  { elementId := i, startNodeElementId := s, endNodeElementId := t, type := "DEPENDS_ON" }

/-- A containment relationship literal. -/
def relC (i s t : String) : Rel :=
  { elementId := i, startNodeElementId := s, endNodeElementId := t, type := "CONTAINS" }

/-- A raw node literal. -/
def rawNode (i : String) : N4jNode :=
  { elementId := i, labels := ["Module"], simpleName := i, kind := "module",
    color := "#fff", depth := 0 }

/-- A rendered node literal. -/
def nodeOf (i : String) : Node :=
  { data :=
      { id := i
        label := i
        properties :=
          { kind := "k", layer := "l", color := "c", depth := 0, selected := "false" } } }

/-- A rendered dependency edge literal of weight 1. -/
def edgeOf (i s t : String) : Edge :=
  { data :=
      { id := i
        source := s
        target := t
        interaction := "dependency"
        properties := { weight := 1 } } }

/-- An edge whose endpoint ids are the empty string: it collides with
`validateGraph`'s masking sentinel. -/
def cexEmptyIdEdge : Edge := edgeOf "e1" "" ""

/-- A merged graph with no nodes and one edge with empty endpoint ids. -/
def cexValidateGraphInput : IntermediateGraph :=
  { name := "G", nodes := [], edges := [cexEmptyIdEdge] }

/-- A merged graph with one node `X`, an edge with an unknown target and an
edge with two unknown endpoints. -/
def witInvalidGraph : IntermediateGraph :=
  { name := "G", nodes := [nodeOf "X"], edges := [edgeOf "e1" "X" "Z", edgeOf "e2" "W" "V"] }

/-- A record whose leading chunk is empty and whose trailing containment
chunk has two edges: at cutoff 0 the code deletes nothing from it. -/
def cexChunks : List (List Rel) :=
  [[], [relD "e" "M1" "M2"], [relC "c1" "A" "B", relC "c2" "B" "C"]]

/-- Two records whose leading containment chains are `A→B→C` and `P→Q→B`:
at cutoff 1 the replace map sends `C` to `B` and `B` to `Q`. -/
def cexMapRecords : List ComponentPath :=
  [{ source := rawNode "A", target := rawNode "A",
     containSourceEdges := [relC "c1" "A" "B", relC "c2" "B" "C"],
     dependencyEdges := [], containTargetEdges := [] },
   { source := rawNode "P", target := rawNode "P",
     containSourceEdges := [relC "f1" "P" "Q", relC "f2" "Q" "B"],
     dependencyEdges := [], containTargetEdges := [] }]

/-- A single record whose leading containment chain is `A→B→C`: at cutoff 1
the replace map is exactly `C ↦ B`. -/
def witMapRecords : List ComponentPath :=
  [{ source := rawNode "A", target := rawNode "A",
     containSourceEdges := [relC "c1" "A" "B", relC "c2" "B" "C"],
     dependencyEdges := [], containTargetEdges := [] }]

/-- A record carrying a dependency edge whose endpoints are not among any
record's source/target nodes. -/
def cexOrphanRecord : ComponentPath :=
  { source := rawNode "S", target := rawNode "T",
    containSourceEdges := [], dependencyEdges := [relD "e" "A" "B"],
    containTargetEdges := [] }

/-- Two records carrying the same raw dependency `A→B` under distinct edge
ids `e1` and `e2`. -/
def permRecord1 : ComponentPath :=
  { source := rawNode "A", target := rawNode "B",
    containSourceEdges := [], dependencyEdges := [relD "e1" "A" "B"],
    containTargetEdges := [] }

/-- See `permRecord1`. -/
def permRecord2 : ComponentPath :=
  { source := rawNode "A", target := rawNode "B",
    containSourceEdges := [], dependencyEdges := [relD "e2" "A" "B"],
    containTargetEdges := [] }

/-- A record with a self dependency edge `A→A`. -/
def selfEdgeRecord : ComponentPath :=
  { source := rawNode "A", target := rawNode "A",
    containSourceEdges := [], dependencyEdges := [relD "s" "A" "A"],
    containTargetEdges := [] }

/-- The rendered dependency relationship `e1 : A→B` with distinct endpoint
nodes, as stored in the rendered graph's dependency set. -/
def bugDependency : DepRel :=
  { elementId := "e1", startNode := rawNode "A", endNode := rawNode "B" }

/-- A cycle path step whose id matches `bugDependency`. -/
def bugStep : ExtSimpleEdge :=
  { id := "e1", source := "X", target := "Y",
    sourceNode := toNodeDataV (rawNode "X"), targetNode := toNodeDataV (rawNode "Y") }

/-- A cycle path step literal. -/
def stepOf (i s t : String) : ExtSimpleEdge :=
  { id := i, source := s, target := t,
    sourceNode := toNodeDataV (rawNode s), targetNode := toNodeDataV (rawNode t) }

/-! ### Helper lemmas -/

theorem enumFrom_filter_snd {α : Type} (p : α → Bool) (l : List α) : ∀ n : Nat,
    ((List.enumFrom n l).filter (fun ie => p ie.2)).map (fun ie => ie.2) = l.filter p := by
  induction l with
  | nil => intro n; rfl
  | cons x xs ih =>
    intro n
    rw [List.enumFrom_cons, List.filter_cons, List.filter_cons]
    by_cases h : p x = true
    · simp only [h, if_true, List.map_cons]
      rw [ih (n + 1)]
    · simp only [h, Bool.false_eq_true, if_false]
      exact ih (n + 1)

/-- On an all-self-edge path, no enumerated entry with positive index passes
the collapse filter. -/
theorem collapse_filter_tail_nil (b : Bool) (xs : List ExtSimpleEdge)
    (h : ∀ e ∈ xs, (e.source == e.target) = true) (n : Nat) :
    (List.enumFrom (n + 1) xs).filter
      (fun ie => if ie.1 = 0 ∧ b = true then true else ie.2.source != ie.2.target) = [] := by
  rw [List.filter_eq_nil_iff]
  intro ie hie
  obtain ⟨i, e⟩ := ie
  obtain ⟨hle, _, hx⟩ := List.mem_enumFrom hie
  have he : e ∈ xs := by
    rw [hx]; exact List.getElem_mem _
  have h0 : ¬(i = 0 ∧ b = true) := by
    rintro ⟨rfl, -⟩; omega
  rw [if_neg h0]
  simp [bne, h e he]

/-- `collapseSelfEdges` restated: keep the head of an all-self-edge path,
else keep exactly the non-self steps. -/
theorem collapseSelfEdges_eq (path : List ExtSimpleEdge) :
    collapseSelfEdges path =
      if path.all (fun e => e.source == e.target) then path.take 1
      else path.filter (fun e => e.source != e.target) := by
  by_cases hall : path.all (fun e => e.source == e.target) = true
  · rw [if_pos hall]
    cases path with
    | nil => rfl
    | cons x xs =>
      unfold collapseSelfEdges
      have hxs : ∀ e ∈ xs, (e.source == e.target) = true := by
        intro e he
        exact (List.all_eq_true.mp hall) e (List.mem_cons_of_mem x he)
      have henum : (x :: xs).enum = (0, x) :: List.enumFrom 1 xs := List.enum_cons
      rw [henum]
      have hpt :
          (fun ie : Nat × ExtSimpleEdge =>
            if ie.1 = 0 ∧ ((x :: xs).all fun e2 => e2.source == e2.target) = true then true
            else ie.2.source != ie.2.target) (0, x) = true := by
        simp [hall]
      have hfilter :
          List.filter
            (fun ie : Nat × ExtSimpleEdge =>
              if ie.1 = 0 ∧ ((x :: xs).all fun e2 => e2.source == e2.target) = true then true
              else ie.2.source != ie.2.target) ((0, x) :: List.enumFrom 1 xs)
            = (0, x) :: List.filter
              (fun ie : Nat × ExtSimpleEdge =>
                if ie.1 = 0 ∧ ((x :: xs).all fun e2 => e2.source == e2.target) = true then true
                else ie.2.source != ie.2.target) (List.enumFrom 1 xs) :=
        List.filter_cons_of_pos hpt
      rw [hfilter,
        collapse_filter_tail_nil ((x :: xs).all (fun e2 => e2.source == e2.target)) xs hxs 0]
      simp
  · rw [if_neg hall]
    unfold collapseSelfEdges
    have hpred : ∀ ie : Nat × ExtSimpleEdge,
        (if ie.1 = 0 ∧ path.all (fun e2 => e2.source == e2.target) = true then true
          else ie.2.source != ie.2.target) = (ie.2.source != ie.2.target) := by
      intro ie
      have : ¬(ie.1 = 0 ∧ path.all (fun e2 => e2.source == e2.target) = true) := by
        rintro ⟨-, hb⟩; exact hall hb
      rw [if_neg this]
    rw [List.filter_congr (fun x _ => hpred x)]
    exact enumFrom_filter_snd (fun e => e.source != e.target) path 0

/-! ### Claim C5 -/

/-- C5 (code bug witness): in the violation projector, when a cycle edge's id
matches a rendered dependency edge, the rewritten step's `target` id is taken
from the rendered edge's end node, but its `targetNode` data is taken from
the rendered edge's START node (ViolationCyclicalDependenciesService.ts line
96), so for an edge with distinct endpoints the adopted target node data is
not the target endpoint's data, contrary to the claim. -/
theorem resolveCycleEdge_targetNode_from_startNode :
    (resolveCycleEdge [bugDependency] [] bugStep).target = bugDependency.endNode.elementId ∧
      (resolveCycleEdge [bugDependency] [] bugStep).targetNode
        = toNodeDataV bugDependency.startNode ∧
      toNodeDataV bugDependency.startNode ≠ toNodeDataV bugDependency.endNode := by
  refine ⟨rfl, rfl, ?_⟩
  decide

/-! ### Claim C6 -/

/-- C6: after rewriting a cycle's path, if every step is a self-edge then the
collapse keeps exactly one step (the head, itself a self-edge); if at least
one step is not a self-edge, every self-edge is removed and the collapsed
path contains zero self-edges. -/
theorem collapseSelfEdges_spec (path : List ExtSimpleEdge) (h : path ≠ []) :
    ((∀ e ∈ path, e.source = e.target) →
      collapseSelfEdges path = path.take 1 ∧ (collapseSelfEdges path).length = 1 ∧
        ∀ e ∈ collapseSelfEdges path, e.source = e.target) ∧
    ((∃ e ∈ path, e.source ≠ e.target) →
      ∀ e ∈ collapseSelfEdges path, e.source ≠ e.target) := by
  constructor
  · intro hall
    have hb : path.all (fun e => e.source == e.target) = true := by
      rw [List.all_eq_true]
      intro e he
      exact beq_iff_eq.mpr (hall e he)
    rw [collapseSelfEdges_eq, if_pos hb]
    refine ⟨rfl, ?_, ?_⟩
    · cases path with
      | nil => exact absurd rfl h
      | cons x xs => rfl
    · intro e he
      exact hall e (List.mem_of_mem_take he)
  · intro hex
    have hb : ¬path.all (fun e => e.source == e.target) = true := by
      rw [List.all_eq_true]
      intro hforall
      obtain ⟨e, he, hne⟩ := hex
      exact hne (beq_iff_eq.mp (hforall e he))
    rw [collapseSelfEdges_eq, if_neg hb]
    intro e he
    exact bne_iff_ne.mp (List.mem_filter.mp he).2

/-- C6 witness: a concrete two-step all-self-edge path keeps exactly its
first step. -/
theorem collapseSelfEdges_spec_witness :
    ([stepOf "a" "A" "A", stepOf "b" "A" "A"] : List ExtSimpleEdge) ≠ [] ∧
      ((∀ e ∈ [stepOf "a" "A" "A", stepOf "b" "A" "A"], e.source = e.target) →
        collapseSelfEdges [stepOf "a" "A" "A", stepOf "b" "A" "A"]
            = [stepOf "a" "A" "A", stepOf "b" "A" "A"].take 1 ∧
          (collapseSelfEdges [stepOf "a" "A" "A", stepOf "b" "A" "A"]).length = 1 ∧
          ∀ e ∈ collapseSelfEdges [stepOf "a" "A" "A", stepOf "b" "A" "A"],
            e.source = e.target) ∧
      ((∃ e ∈ [stepOf "a" "A" "A", stepOf "b" "A" "A"], e.source ≠ e.target) →
        ∀ e ∈ collapseSelfEdges [stepOf "a" "A" "A", stepOf "b" "A" "A"],
          e.source ≠ e.target) :=
  ⟨by decide, collapseSelfEdges_spec [stepOf "a" "A" "A", stepOf "b" "A" "A"] (by decide)⟩

/-! ### Claim C10 -/

/-- C10: the self-edge filter of `formatToLPG` runs only when the `selfEdges`
option is exactly `false`: a self-edge that survives deduplication and the
containment split is in the rendered edge set if and only if `selfEdges` is
not exactly `false` (i.e. it is omitted or `true`). -/
theorem formatToLPG_selfEdges_spec (records : List ComponentPath)
    (selectedId : Option String) (name : String) (md : Option Nat) (se : Option Bool)
    (e : Edge) (he : e ∈ (lpgSplit records selectedId md).2)
    (hself : e.data.source = e.data.target) :
    (e ∈ (formatToLPG records selectedId name
        { maxDepth := md, selfEdges := se }).edges) ↔ se ≠ some false := by
  by_cases hse : se = some false
  · subst hse
    simp only [formatToLPG, if_pos rfl]
    constructor
    · intro hmem
      have := (List.mem_filter.mp hmem).2
      rw [hself] at this
      simp [bne] at this
    · intro hcc
      exact absurd rfl hcc
  · have hne : ({ maxDepth := md, selfEdges := se } : BasicGraphFilterOptions).selfEdges
      ≠ some false := hse
    simp only [formatToLPG, if_neg hne]
    exact ⟨fun _ => hse, fun _ => he⟩

/-- C10 witness: with `selfEdges` omitted, the surviving self-edge `A→A` of a
concrete record is rendered. -/
theorem formatToLPG_selfEdges_spec_witness :
    (Edge.mk (toEdgeData (relD "s" "A" "A")) ∈ (lpgSplit [selfEdgeRecord] none none).2) ∧
      (Edge.mk (toEdgeData (relD "s" "A" "A"))).data.source
        = (Edge.mk (toEdgeData (relD "s" "A" "A"))).data.target ∧
      ((Edge.mk (toEdgeData (relD "s" "A" "A")) ∈ (formatToLPG [selfEdgeRecord] none "g"
          { maxDepth := none, selfEdges := none }).edges) ↔ (none : Option Bool) ≠ some false) :=
  ⟨by decide, by decide,
    formatToLPG_selfEdges_spec [selfEdgeRecord] none "g" none none
      (Edge.mk (toEdgeData (relD "s" "A" "A"))) (by decide) (by decide)⟩

/-! ### Claim C1 -/

/-- On a graph whose edge endpoints are nonempty ids, the masked invalid-edge
list is the masked image of the offending-edge list. -/
theorem invalidEdges_eq_offending (g : IntermediateGraph)
    (hne : ∀ e ∈ g.edges, e.data.source ≠ "" ∧ e.data.target ≠ "") :
    invalidEdges g = (offendingEdges g).map (maskEdge (nodeKeys g)) := by
  unfold invalidEdges offendingEdges
  rw [List.filter_map]
  congr 1
  apply List.filter_congr
  intro e he
  obtain ⟨hs, ht⟩ := hne e he
  by_cases hcs : e.data.source ∈ nodeKeys g <;>
    by_cases hct : e.data.target ∈ nodeKeys g <;>
      simp [maskEdge, hcs, hct, bne, hs, ht]

/-- On a graph whose edge endpoints are nonempty ids, the rendered message of
a masked offending edge is the specification's descriptor of that edge. -/
theorem invalidEdgeMessage_eq_descriptor (g : IntermediateGraph)
    (hne : ∀ e ∈ g.edges, e.data.source ≠ "" ∧ e.data.target ≠ "") :
    ∀ e ∈ offendingEdges g,
      invalidEdgeMessage (maskEdge (nodeKeys g) e) = offendingDescriptor (nodeKeys g) e := by
  intro e he
  obtain ⟨hmem, hpred⟩ := List.mem_filter.mp he
  obtain ⟨hs, ht⟩ := hne e hmem
  unfold invalidEdgeMessage offendingDescriptor maskEdge
  by_cases hcs : e.data.source ∈ nodeKeys g <;> by_cases hct : e.data.target ∈ nodeKeys g
  · exfalso
    revert hpred
    simp [hcs, hct]
  · simp [hcs, hct, hs, ht]
  · simp [hcs, hct, hs, ht]
  · simp [hcs, hct, hs, ht]

/-- C1 (amended): for graphs whose edge endpoint ids are nonempty (the
validator uses the empty string as an internal masking sentinel), validation
returns the graph unchanged exactly when every edge's source and target id is
in the merged node set, and otherwise throws the single error enumerating
every offending edge with its missing endpoint(s). -/
theorem validateGraph_spec (g : IntermediateGraph)
    (hne : ∀ e ∈ g.edges, e.data.source ≠ "" ∧ e.data.target ≠ "") :
    (validateGraph g =
      if offendingEdges g = [] then Except.ok g
      else Except.error (validationFailureMessage g)) ∧
    (offendingEdges g = [] ↔
      ∀ e ∈ g.edges, e.data.source ∈ nodeKeys g ∧ e.data.target ∈ nodeKeys g) := by
  constructor
  · unfold validateGraph
    rw [invalidEdges_eq_offending g hne]
    by_cases hoff : offendingEdges g = []
    · rw [hoff]
      simp
    · rw [if_neg hoff, if_neg (by simp [hoff]), List.map_map]
      have hmsg : ∀ a ∈ offendingEdges g,
          (invalidEdgeMessage ∘ maskEdge (nodeKeys g)) a = offendingDescriptor (nodeKeys g) a :=
        fun a ha => invalidEdgeMessage_eq_descriptor g hne a ha
      rw [List.map_congr_left hmsg]
      rfl
  · unfold offendingEdges
    rw [List.filter_eq_nil_iff]
    constructor
    · intro hall e he
      have := hall e he
      simpa using this
    · intro hall e he
      obtain ⟨h1, h2⟩ := hall e he
      simp [h1, h2]

/-- C1 (amended) witness: on a concrete merged graph with one edge whose
target is unknown and one edge whose endpoints are both unknown, validation
throws the enumerating error. -/
theorem validateGraph_spec_witness :
    (∀ e ∈ witInvalidGraph.edges, e.data.source ≠ "" ∧ e.data.target ≠ "") ∧
    ((validateGraph witInvalidGraph =
      if offendingEdges witInvalidGraph = [] then Except.ok witInvalidGraph
      else Except.error (validationFailureMessage witInvalidGraph)) ∧
    (offendingEdges witInvalidGraph = [] ↔
      ∀ e ∈ witInvalidGraph.edges,
        e.data.source ∈ nodeKeys witInvalidGraph ∧ e.data.target ∈ nodeKeys witInvalidGraph)) :=
  ⟨by decide, validateGraph_spec witInvalidGraph (by decide)⟩

/-- C1 (counterexample to the claim as stated): an edge whose endpoint ids
are the empty string has both endpoints absent from the (empty) merged node
set, yet `validateGraph` raises no error and returns the graph — the
empty-string ids collide with the masking sentinel. -/
theorem validateGraph_claim_counterexample :
    validateGraph cexValidateGraphInput = Except.ok cexValidateGraphInput ∧
      cexEmptyIdEdge ∈ cexValidateGraphInput.edges ∧
      (nodeKeys cexValidateGraphInput).contains cexEmptyIdEdge.data.source = false ∧
      (nodeKeys cexValidateGraphInput).contains cexEmptyIdEdge.data.target = false :=
  ⟨rfl, by decide, by decide, by decide⟩

/-! ### Claim C2 -/

theorem spliceRemoved_zero (c : List Rel) (s : Int) : spliceRemoved c s 0 = [] := by
  simp [spliceRemoved]

/-- Splicing a chunk of length `len` at a nonnegative position `d` with
deletion count `len - d` removes exactly the suffix from position `d` on. -/
theorem spliceRemoved_lead (c : List Rel) (d : Nat) :
    spliceRemoved c (d : Int) (c.length - d) = c.drop d := by
  unfold spliceRemoved
  rw [if_neg (by omega), Int.toNat_natCast]
  by_cases hd : d ≤ c.length
  · rw [min_eq_left hd]
    apply List.take_of_length_le
    rw [List.length_drop]
  · rw [min_eq_right (le_of_not_le hd), List.drop_length, List.take_nil,
      List.drop_eq_nil_of_le (le_of_not_le hd)]

/-- Splicing a chunk at position `length - k` with deletion count `k ≤ length`
removes exactly the last `k` elements. -/
theorem spliceRemoved_tail (c : List Rel) (k : Nat) (hk : k ≤ c.length) :
    spliceRemoved c ((c.length : Int) - (k : Int)) k = c.drop (c.length - k) := by
  unfold spliceRemoved
  rw [if_neg (by omega)]
  have ht : ((c.length : Int) - (k : Int)).toNat = c.length - k := by omega
  rw [ht, min_eq_left (by omega)]
  apply List.take_of_length_le
  rw [List.length_drop]
  omega

/-- A chunk's containment depth is zero or its length. -/
theorem chunkDepth_eq_zero_or_length (c : List Rel) :
    chunkDepth c = 0 ∨ chunkDepth c = c.length := by
  unfold chunkDepth
  cases c with
  | nil => exact Or.inl rfl
  | cons e t =>
    by_cases h : strToLower e.type = "contains"
    · exact Or.inr (by simp [h])
    · exact Or.inl (by simp [h])

/-- A chunk with positive containment depth has depth equal to its length. -/
theorem chunkDepth_pos_eq_length (c : List Rel) (h : 0 < chunkDepth c) :
    chunkDepth c = c.length := by
  rcases chunkDepth_eq_zero_or_length c with h0 | hl
  · omega
  · exact hl

/-- The leading splice of `getAbstractionMap` removes the chunk's suffix from
the cutoff on (and nothing when the chunk is not a containment chunk). -/
theorem deletedLead_eq (c : List Rel) (maxDepth : Nat) :
    spliceRemoved c (maxDepth : Int) (chunkDepth c - maxDepth)
      = (if 0 < chunkDepth c then c.drop maxDepth else []) := by
  rcases chunkDepth_eq_zero_or_length c with h0 | hl
  · rw [h0]
    by_cases hp : (0 : Nat) < 0
    · omega
    · rw [if_neg (by omega), Nat.zero_sub, spliceRemoved_zero]
  · by_cases hp : 0 < chunkDepth c
    · rw [if_pos hp, hl, spliceRemoved_lead]
    · have hz : chunkDepth c = 0 := by omega
      rw [if_neg hp, hz, Nat.zero_sub, spliceRemoved_zero]

/-- The opposite-side splice of `getAbstractionMap` removes the last
`count` elements of the chunk, provided the count is within the chunk's
containment depth. -/
theorem deletedOpp_eq (c : List Rel) (k : Nat) (hk : k ≤ chunkDepth c) :
    spliceRemoved c ((chunkDepth c : Int) - (k : Int)) k = c.drop (c.length - k) := by
  by_cases hz : k = 0
  · subst hz
    rw [spliceRemoved_zero, Nat.sub_zero, List.drop_length]
  · have hp : 0 < chunkDepth c := by omega
    have hl := chunkDepth_pos_eq_length c hp
    rw [hl] at hk ⊢
    exact spliceRemoved_tail c k hk

/-- C2 (amended): for a pre-processed record with its leading and trailing
chunks distinct (at least two chunks) and the excess within the opposite
chunk's containment depth, the abstraction map contains exactly the entries
of the amended rule: with the direction flag unset, the leading containment
chunk deletes everything from position `maxDepth` on and the trailing chunk
loses exactly that many (the leading excess) edges from its end; with the
flag set the roles are swapped; each deleted edge's end-node id maps to the
start-node id of its run's first deleted edge. -/
theorem getAbstractionMapChunks_amended (chunks : List (List Rel)) (maxDepth : Nat)
    (rev : Bool) (h2 : 2 ≤ chunks.length)
    (hwf : if rev then chunkDepth (chunks.getLastD []) - maxDepth ≤ chunkDepth (chunks.headD [])
      else chunkDepth (chunks.headD []) - maxDepth ≤ chunkDepth (chunks.getLastD [])) :
    getAbstractionMapChunks [chunks] maxDepth rev
      = buildMap (amendedRuleInsertions chunks maxDepth rev) := by
  match chunks, h2 with
  | c0 :: c1 :: rest, _ =>
    have hGAM : getAbstractionMapChunks [c0 :: c1 :: rest] maxDepth rev
        = buildMap (recordInsertionsChunks (c0 :: c1 :: rest) maxDepth rev) := by
      unfold getAbstractionMapChunks
      rw [List.flatMap_cons, List.flatMap_nil, List.append_nil]
    rw [hGAM]
    congr 1
    have hlast : (c1 :: rest).getLast (by simp) = (c0 :: c1 :: rest).getLastD [] := by
      simp only [List.getLast_eq_getLastD, List.getLastD_eq_getLast?]
      cases rest with
      | nil => rfl
      | cons r rs =>
        rw [show (c0 :: c1 :: r :: rs).getLast? = (c1 :: r :: rs).getLast? from
            List.getLast?_cons_cons,
          show (c1 :: r :: rs).getLast? = (r :: rs).getLast? from List.getLast?_cons_cons]
        rcases h : (r :: rs).getLast? with _ | x
        · simp at h
        · rfl
    simp only [recordInsertionsChunks, amendedRuleInsertions, List.headD_cons]
    rw [hlast]
    simp only [List.headD_cons] at hwf
    cases rev with
    | false =>
      simp only [Bool.not_false, eq_self_iff_true, if_true]
      simp only [Bool.false_eq_true, if_false] at hwf
      rw [deletedLead_eq c0 maxDepth,
        deletedOpp_eq ((c0 :: c1 :: rest).getLastD []) (chunkDepth c0 - maxDepth) hwf]
    | true =>
      simp only [Bool.not_true, Bool.false_eq_true, if_false]
      simp only [eq_self_iff_true, if_true] at hwf
      rw [deletedLead_eq ((c0 :: c1 :: rest).getLastD []) maxDepth,
        deletedOpp_eq c0 (chunkDepth ((c0 :: c1 :: rest).getLastD []) - maxDepth) hwf]

/-- C2 (amended) witness: a concrete record with a one-edge leading
containment chunk and a two-edge trailing chunk at cutoff 0 maps exactly per
the amended rule. -/
theorem getAbstractionMapChunks_amended_witness :
    2 ≤ ([[relC "w1" "A" "B"], [relD "w2" "B" "C"],
        [relC "w3" "D" "E", relC "w4" "E" "F"]] : List (List Rel)).length ∧
      (if false then
          chunkDepth (([[relC "w1" "A" "B"], [relD "w2" "B" "C"],
            [relC "w3" "D" "E", relC "w4" "E" "F"]] : List (List Rel)).getLastD []) - 0
            ≤ chunkDepth (([[relC "w1" "A" "B"], [relD "w2" "B" "C"],
              [relC "w3" "D" "E", relC "w4" "E" "F"]] : List (List Rel)).headD [])
        else
          chunkDepth (([[relC "w1" "A" "B"], [relD "w2" "B" "C"],
            [relC "w3" "D" "E", relC "w4" "E" "F"]] : List (List Rel)).headD []) - 0
            ≤ chunkDepth (([[relC "w1" "A" "B"], [relD "w2" "B" "C"],
              [relC "w3" "D" "E", relC "w4" "E" "F"]] : List (List Rel)).getLastD [])) ∧
      getAbstractionMapChunks [[[relC "w1" "A" "B"], [relD "w2" "B" "C"],
          [relC "w3" "D" "E", relC "w4" "E" "F"]]] 0 false
        = buildMap (amendedRuleInsertions [[relC "w1" "A" "B"], [relD "w2" "B" "C"],
          [relC "w3" "D" "E", relC "w4" "E" "F"]] 0 false) :=
  ⟨by decide, by decide,
    getAbstractionMapChunks_amended [[relC "w1" "A" "B"], [relD "w2" "B" "C"],
      [relC "w3" "D" "E", relC "w4" "E" "F"]] 0 false (by decide) (by decide)⟩

/-- C2 (counterexample to the claim as stated): on a record whose leading
chunk is empty and whose trailing containment chunk has two edges, at cutoff
0 and with the direction flag unset, the code deletes nothing (the trailing
deletion count is the leading excess, 0), while the claim's rule — the
trailing chunk deletes its own excess beyond the cutoff — would map both
trailing end nodes. -/
theorem getAbstractionMapChunks_claim_counterexample :
    getAbstractionMapChunks [cexChunks] 0 false = [] ∧
      List.lookup "C" (claimRuleMap cexChunks 0) = some "A" ∧
      List.lookup "C" (getAbstractionMapChunks [cexChunks] 0 false) = none := by
  refine ⟨rfl, rfl, rfl⟩

/-! ### Replace-map lemmas -/

theorem lookup_cons (x a b : String) (t : List (String × String)) :
    List.lookup x ((a, b) :: t) = if x = a then some b else List.lookup x t := by
  by_cases h : x = a
  · simp [List.lookup, h]
  · have hb : (x == a) = false := by
      rw [beq_eq_false_iff_ne]
      exact h
    simp [List.lookup, hb, h]

theorem lookup_mapSet (m : List (String × String)) (k v x : String) :
    List.lookup x (mapSet m k v) = if x = k then some v else List.lookup x m := by
  induction m with
  | nil =>
    show List.lookup x ((k, v) :: []) = _
    rw [lookup_cons]
  | cons p t ih =>
    obtain ⟨a, b⟩ := p
    by_cases hak : a = k
    · have hms : mapSet ((a, b) :: t) k v = mapSet t k v := by
        simp [mapSet, List.filter_cons, hak]
      rw [hms, ih, lookup_cons]
      by_cases hx : x = k
      · simp [hx]
      · have hxa : ¬x = a := fun hc => hx (hc.trans hak)
        simp [hx, hxa]
    · have hms : mapSet ((a, b) :: t) k v = (a, b) :: mapSet t k v := by
        simp [mapSet, List.filter_cons, hak]
      rw [hms, lookup_cons, ih, lookup_cons]
      by_cases hxa : x = a
      · have hxk : ¬x = k := fun hc => hak (hxa.symm.trans hc)
        simp [hxa, hxk, hak]
      · simp [hxa]

theorem lookup_foldl_mapSet (l : List (String × String)) :
    ∀ (m : List (String × String)) (x : String),
      List.lookup x (l.foldl (fun m p => mapSet m p.1 p.2) m)
        = (List.lookup x l.reverse).or (List.lookup x m) := by
  induction l with
  | nil => intro m x; simp
  | cons p t ih =>
    intro m x
    obtain ⟨a, b⟩ := p
    rw [List.foldl_cons, ih (mapSet m a b) x, List.reverse_cons, List.lookup_append,
      lookup_mapSet]
    by_cases h : x = a
    · cases hx : List.lookup x t.reverse <;> simp [h, lookup_cons, hx]
    · cases hx : List.lookup x t.reverse <;> simp [h, lookup_cons, hx]

/-- Looking a key up in the replayed map finds the value of its last `set`. -/
theorem lookup_buildMap (l : List (String × String)) (x : String) :
    List.lookup x (buildMap l) = List.lookup x l.reverse := by
  rw [buildMap, lookup_foldl_mapSet l [] x]
  cases hx : List.lookup x l.reverse <;> simp

theorem mem_of_lookup_some {l : List (String × String)} {x v : String}
    (h : List.lookup x l = some v) : (x, v) ∈ l := by
  induction l with
  | nil => simp [List.lookup] at h
  | cons p t ih =>
    obtain ⟨a, b⟩ := p
    rw [lookup_cons] at h
    by_cases hxa : x = a
    · rw [if_pos hxa] at h
      obtain rfl : b = v := by injection h
      rw [hxa]
      exact List.mem_cons_self _ _
    · rw [if_neg hxa] at h
      exact List.mem_cons_of_mem _ (ih h)

theorem lookup_isSome_of_mem {l : List (String × String)} {x v : String}
    (h : (x, v) ∈ l) : ∃ w, List.lookup x l = some w := by
  induction l with
  | nil => simp at h
  | cons p t ih =>
    obtain ⟨a, b⟩ := p
    rw [lookup_cons]
    by_cases hxa : x = a
    · exact ⟨b, by rw [if_pos hxa]⟩
    · rcases List.mem_cons.mp h with heq | hmem
      · exfalso
        exact hxa (congrArg Prod.fst heq)
      · obtain ⟨w, hw⟩ := ih hmem
        exact ⟨w, by rw [if_neg hxa]; exact hw⟩

/-- Keys of the content of a JS map are pairwise distinct. -/
theorem nodup_keys_mapSet (m : List (String × String)) (k v : String)
    (h : (m.map Prod.fst).Nodup) : ((mapSet m k v).map Prod.fst).Nodup := by
  unfold mapSet
  rw [List.map_append, List.nodup_append]
  refine ⟨?_, by simp, ?_⟩
  · exact List.Nodup.sublist (List.Sublist.map Prod.fst (List.filter_sublist m)) h
  · intro a ha hb
    simp only [List.mem_map] at ha
    obtain ⟨p, hp, rfl⟩ := ha
    have hne := (List.mem_filter.mp hp).2
    simp only [List.map_cons, List.map_nil, List.mem_singleton] at hb
    rw [hb] at hne
    simp at hne

theorem nodup_keys_foldl_mapSet (l : List (String × String)) :
    ∀ m : List (String × String), (m.map Prod.fst).Nodup →
      (((l.foldl (fun m p => mapSet m p.1 p.2) m)).map Prod.fst).Nodup := by
  induction l with
  | nil => intro m h; exact h
  | cons p t ih =>
    intro m h
    rw [List.foldl_cons]
    exact ih (mapSet m p.1 p.2) (nodup_keys_mapSet m p.1 p.2 h)

theorem nodup_keys_buildMap (l : List (String × String)) :
    ((buildMap l).map Prod.fst).Nodup :=
  nodup_keys_foldl_mapSet l [] (by simp)

theorem value_unique_of_nodup_keys {l : List (String × String)}
    (h : (l.map Prod.fst).Nodup) {k v1 v2 : String}
    (h1 : (k, v1) ∈ l) (h2 : (k, v2) ∈ l) : v1 = v2 := by
  induction l with
  | nil => simp at h1
  | cons p t ih =>
    rw [List.map_cons, List.nodup_cons] at h
    rcases List.mem_cons.mp h1 with he1 | hm1 <;> rcases List.mem_cons.mp h2 with he2 | hm2
    · rw [← he1] at he2
      injection he2 with hfst hsnd
      exact hsnd.symm
    · exfalso
      apply h.1
      rw [show p.1 = k from (congrArg Prod.fst he1).symm]
      exact List.mem_map.mpr ⟨(k, v2), hm2, rfl⟩
    · exfalso
      apply h.1
      rw [show p.1 = k from (congrArg Prod.fst he2).symm]
      exact List.mem_map.mpr ⟨(k, v1), hm1, rfl⟩
    · exact ih h.2 hm1 hm2

/-! ### Claim C3 -/

/-- C3 (counterexample to the claim as stated): on the two concrete records
of `cexMapRecords` at cutoff 1 the abstraction map is `C ↦ B, B ↦ Q`, so
applying it twice to `C` gives `Q` while applying it once gives `B`: the map
need not be idempotent. -/
theorem getAbstractionMap_claim_counterexample :
    applyMap (getAbstractionMap cexMapRecords 1)
        (applyMap (getAbstractionMap cexMapRecords 1) "C")
      ≠ applyMap (getAbstractionMap cexMapRecords 1) "C" := by
  decide

/-- C3 (amended): for every record list and cutoff the abstraction map is,
unconditionally, a valid partial function — no id maps to two different
targets; and, provided no mapped-to value is itself in the map's domain,
applying the map twice equals applying it once. -/
theorem getAbstractionMap_partial_function (records : List ComponentPath) (maxDepth : Nat) :
    (∀ k v1 v2, (k, v1) ∈ getAbstractionMap records maxDepth →
      (k, v2) ∈ getAbstractionMap records maxDepth → v1 = v2) ∧
    ((∀ p ∈ getAbstractionMap records maxDepth,
        List.lookup p.2 (getAbstractionMap records maxDepth) = none) →
      ∀ x, applyMap (getAbstractionMap records maxDepth)
          (applyMap (getAbstractionMap records maxDepth) x)
        = applyMap (getAbstractionMap records maxDepth) x) := by
  constructor
  · intro k v1 v2 h1 h2
    exact value_unique_of_nodup_keys (nodup_keys_buildMap _) h1 h2
  · intro hid x
    cases hx : List.lookup x (getAbstractionMap records maxDepth) with
    | none =>
      unfold applyMap
      rw [hx]
      simp [hx]
    | some v =>
      have hmem : (x, v) ∈ getAbstractionMap records maxDepth := mem_of_lookup_some hx
      have hv := hid (x, v) hmem
      unfold applyMap
      rw [hx]
      simp [hv]

/-- C3 (amended) witness: the single-record map `C ↦ B` is a partial
function, satisfies the range-disjoint-from-domain condition, and is
idempotent. -/
theorem getAbstractionMap_partial_function_witness :
    (∀ k v1 v2, (k, v1) ∈ getAbstractionMap witMapRecords 1 →
      (k, v2) ∈ getAbstractionMap witMapRecords 1 → v1 = v2) ∧
    (∀ p ∈ getAbstractionMap witMapRecords 1,
      List.lookup p.2 (getAbstractionMap witMapRecords 1) = none) ∧
    (∀ x, applyMap (getAbstractionMap witMapRecords 1)
        (applyMap (getAbstractionMap witMapRecords 1) x)
      = applyMap (getAbstractionMap witMapRecords 1) x) :=
  ⟨(getAbstractionMap_partial_function witMapRecords 1).1, by decide,
    (getAbstractionMap_partial_function witMapRecords 1).2 (by decide)⟩

/-! ### First-occurrence deduplication lemmas -/

theorem dedupByKey_subset {α : Type} (key : α → String) :
    ∀ (l : List α) (seen : List String) (x : α), x ∈ dedupByKey key l seen → x ∈ l := by
  intro l
  induction l with
  | nil => intro seen x hx; simp [dedupByKey] at hx
  | cons y ys ih =>
    intro seen x hx
    unfold dedupByKey at hx
    by_cases h : key y ∈ seen
    · rw [if_pos h] at hx
      exact List.mem_cons_of_mem _ (ih seen x hx)
    · rw [if_neg h] at hx
      rcases List.mem_cons.mp hx with rfl | hmem
      · exact List.mem_cons_self _ _
      · exact List.mem_cons_of_mem _ (ih _ x hmem)

theorem mem_map_key_dedupByKey {α : Type} (key : α → String) :
    ∀ (l : List α) (seen : List String) (k : String),
      k ∈ (dedupByKey key l seen).map key ↔ k ∈ l.map key ∧ k ∉ seen := by
  intro l
  induction l with
  | nil => intro seen k; simp [dedupByKey]
  | cons y ys ih =>
    intro seen k
    unfold dedupByKey
    by_cases h : key y ∈ seen
    · rw [if_pos h, ih]
      constructor
      · rintro ⟨hk, hs⟩
        exact ⟨by simp [hk], hs⟩
      · rintro ⟨hk, hs⟩
        rcases List.mem_map.mp hk with ⟨a, ha, rfl⟩
        rcases List.mem_cons.mp ha with rfl | hmem
        · exact absurd h hs
        · exact ⟨List.mem_map.mpr ⟨a, hmem, rfl⟩, hs⟩
    · rw [if_neg h, List.map_cons]
      constructor
      · intro hk
        rcases List.mem_cons.mp hk with rfl | hmem
        · exact ⟨by simp, h⟩
        · obtain ⟨hk2, hs2⟩ := (ih _ k).mp hmem
          refine ⟨by simp [hk2], fun hc => hs2 (List.mem_cons_of_mem _ hc)⟩
      · rintro ⟨hk, hs⟩
        rcases List.mem_map.mp hk with ⟨a, ha, rfl⟩
        rcases List.mem_cons.mp ha with rfl | hmem
        · exact List.mem_cons_self _ _
        · by_cases hky : key a = key y
          · rw [hky]
            exact List.mem_cons_self _ _
          · refine List.mem_cons_of_mem _ ((ih _ (key a)).mpr
              ⟨List.mem_map.mpr ⟨a, hmem, rfl⟩, ?_⟩)
            intro hc
            rcases List.mem_cons.mp hc with hc1 | hc2
            · exact hky hc1
            · exact hs hc2

theorem nodup_map_key_dedupByKey {α : Type} (key : α → String) :
    ∀ (l : List α) (seen : List String), ((dedupByKey key l seen).map key).Nodup := by
  intro l
  induction l with
  | nil => intro seen; simp [dedupByKey]
  | cons y ys ih =>
    intro seen
    unfold dedupByKey
    by_cases h : key y ∈ seen
    · rw [if_pos h]
      exact ih seen
    · rw [if_neg h, List.map_cons, List.nodup_cons]
      refine ⟨?_, ih _⟩
      intro hc
      obtain ⟨-, hs⟩ := (mem_map_key_dedupByKey key ys (key y :: seen) (key y)).mp hc
      exact hs (List.mem_cons_self _ _)

theorem mem_dedupByKey_of_coherent {α : Type} (key : α → String) :
    ∀ (l : List α) (seen : List String) (x : α),
      (∀ a ∈ l, ∀ b ∈ l, key a = key b → a = b) →
      x ∈ l → key x ∉ seen → x ∈ dedupByKey key l seen := by
  intro l
  induction l with
  | nil => intro seen x _ hx; simp at hx
  | cons y ys ih =>
    intro seen x hcoh hx hs
    unfold dedupByKey
    by_cases h : key y ∈ seen
    · rw [if_pos h]
      rcases List.mem_cons.mp hx with rfl | hmem
      · exact absurd h hs
      · exact ih seen x
          (fun a ha b hb => hcoh a (List.mem_cons_of_mem _ ha) b (List.mem_cons_of_mem _ hb))
          hmem hs
    · rw [if_neg h]
      rcases List.mem_cons.mp hx with rfl | hmem
      · exact List.mem_cons_self _ _
      · by_cases hky : key x = key y
        · have : x = y := hcoh x (List.mem_cons_of_mem _ hmem) y (List.mem_cons_self _ _) hky
          rw [this]
          exact List.mem_cons_self _ _
        · refine List.mem_cons_of_mem _ (ih (key y :: seen) x
            (fun a ha b hb => hcoh a (List.mem_cons_of_mem _ ha) b (List.mem_cons_of_mem _ hb))
            hmem ?_)
          intro hc
          rcases List.mem_cons.mp hc with hc1 | hc2
          · exact hky hc1
          · exact hs hc2

/-! ### mergeDuplicateEdges lemmas -/

theorem edgePair_addWeight (e : Edge) (w : Nat) : edgePair (addWeight e w) = edgePair e := rfl

theorem edgeShape_addWeight (e : Edge) (w : Nat) : edgeShape (addWeight e w) = edgeShape e := rfl

theorem pairWeight_cons (x : Edge) (l : List Edge) (p : String × String) :
    pairWeight (x :: l) p
      = (if edgePair x = p then x.data.properties.weight else 0) + pairWeight l p := by
  by_cases h : edgePair x = p <;> simp [pairWeight, List.filter_cons, h]

theorem mergeInto_cond_iff (a e : Edge) :
    (a.data.source = e.data.source ∧ a.data.target = e.data.target) ↔ edgePair a = edgePair e := by
  unfold edgePair
  constructor
  · rintro ⟨h1, h2⟩
    rw [h1, h2]
  · intro h
    exact ⟨congrArg Prod.fst h, congrArg Prod.snd h⟩

theorem mergeInto_map_pair (e : Edge) :
    ∀ acc : List Edge, (mergeInto acc e).map edgePair =
      if edgePair e ∈ acc.map edgePair then acc.map edgePair
      else acc.map edgePair ++ [edgePair e] := by
  intro acc
  induction acc with
  | nil => simp [mergeInto]
  | cons a as ih =>
    simp only [mergeInto]
    by_cases h : a.data.source = e.data.source ∧ a.data.target = e.data.target
    · have hpe : edgePair a = edgePair e := (mergeInto_cond_iff a e).mp h
      rw [if_pos h, List.map_cons, edgePair_addWeight, List.map_cons,
        if_pos (by rw [← hpe]; exact List.mem_cons_self _ _)]
    · have hne : edgePair a ≠ edgePair e := fun hc => h ((mergeInto_cond_iff a e).mpr hc)
      rw [if_neg h, List.map_cons, ih, List.map_cons]
      by_cases hm : edgePair e ∈ as.map edgePair
      · rw [if_pos hm, if_pos (List.mem_cons_of_mem _ hm)]
      · rw [if_neg hm, if_neg (by
          rw [List.mem_cons]
          rintro (hc | hc)
          · exact hne hc.symm
          · exact hm hc)]
        rfl

theorem mergeInto_pairWeight (e : Edge) (p : String × String) :
    ∀ acc : List Edge, pairWeight (mergeInto acc e) p
      = pairWeight acc p + (if edgePair e = p then e.data.properties.weight else 0) := by
  intro acc
  induction acc with
  | nil =>
    show pairWeight [e] p = pairWeight [] p + _
    rw [pairWeight_cons]
    simp [pairWeight]
  | cons a as ih =>
    simp only [mergeInto]
    by_cases h : a.data.source = e.data.source ∧ a.data.target = e.data.target
    · have hpe : edgePair a = edgePair e := (mergeInto_cond_iff a e).mp h
      rw [if_pos h, pairWeight_cons, pairWeight_cons, edgePair_addWeight]
      by_cases hp : edgePair a = p
      · have hep : edgePair e = p := hpe.symm.trans hp
        rw [if_pos hp, if_pos hp, if_pos hep]
        simp only [addWeight]
        omega
      · have hep : ¬edgePair e = p := fun hc => hp (hpe.trans hc)
        rw [if_neg hp, if_neg hp, if_neg hep]
        omega
    · rw [if_neg h, pairWeight_cons, pairWeight_cons, ih]
      omega

theorem mergeInto_shape (e : Edge) :
    ∀ (acc : List Edge) (x : Edge), x ∈ mergeInto acc e →
      (∃ y ∈ acc, edgeShape x = edgeShape y) ∨ x = e := by
  intro acc
  induction acc with
  | nil =>
    intro x hx
    simp only [mergeInto, List.mem_singleton] at hx
    exact Or.inr hx
  | cons a as ih =>
    intro x hx
    simp only [mergeInto] at hx
    by_cases h : a.data.source = e.data.source ∧ a.data.target = e.data.target
    · rw [if_pos h] at hx
      rcases List.mem_cons.mp hx with rfl | hmem
      · exact Or.inl ⟨a, List.mem_cons_self _ _, edgeShape_addWeight a _⟩
      · exact Or.inl ⟨x, List.mem_cons_of_mem _ hmem, rfl⟩
    · rw [if_neg h] at hx
      rcases List.mem_cons.mp hx with rfl | hmem
      · exact Or.inl ⟨x, List.mem_cons_self _ _, rfl⟩
      · rcases ih x hmem with ⟨y, hy, hsh⟩ | rfl
        · exact Or.inl ⟨y, List.mem_cons_of_mem _ hy, hsh⟩
        · exact Or.inr rfl

theorem mergeInto_nodup_pairs (e : Edge) (acc : List Edge)
    (h : (acc.map edgePair).Nodup) : ((mergeInto acc e).map edgePair).Nodup := by
  rw [mergeInto_map_pair]
  by_cases hm : edgePair e ∈ acc.map edgePair
  · rw [if_pos hm]
    exact h
  · rw [if_neg hm, List.nodup_append]
    exact ⟨h, by simp, by
      intro a ha hb
      rw [List.mem_singleton] at hb
      rw [hb] at ha
      exact hm ha⟩

theorem foldl_mergeInto_pairWeight (L : List Edge) (p : String × String) :
    ∀ acc : List Edge, pairWeight (L.foldl mergeInto acc) p = pairWeight acc p + pairWeight L p := by
  induction L with
  | nil =>
    intro acc
    simp [pairWeight]
  | cons e t ih =>
    intro acc
    rw [List.foldl_cons, ih (mergeInto acc e), mergeInto_pairWeight, pairWeight_cons]
    omega

theorem foldl_mergeInto_mem_pair (L : List Edge) (p : String × String) :
    ∀ acc : List Edge,
      (p ∈ (L.foldl mergeInto acc).map edgePair ↔ p ∈ acc.map edgePair ∨ p ∈ L.map edgePair) := by
  induction L with
  | nil => intro acc; simp
  | cons e t ih =>
    intro acc
    rw [List.foldl_cons, ih (mergeInto acc e), List.map_cons, List.mem_cons,
      mergeInto_map_pair]
    by_cases hm : edgePair e ∈ acc.map edgePair
    · rw [if_pos hm]
      constructor
      · rintro (h | h)
        · exact Or.inl h
        · exact Or.inr (Or.inr h)
      · rintro (h | (rfl | h))
        · exact Or.inl h
        · exact Or.inl hm
        · exact Or.inr h
    · rw [if_neg hm]
      constructor
      · rintro (h | h)
        · rcases List.mem_append.mp h with h1 | h1
          · exact Or.inl h1
          · exact Or.inr (Or.inl (List.mem_singleton.mp h1))
        · exact Or.inr (Or.inr h)
      · rintro (h | (rfl | h))
        · exact Or.inl (List.mem_append.mpr (Or.inl h))
        · exact Or.inl (List.mem_append.mpr (Or.inr (List.mem_singleton.mpr rfl)))
        · exact Or.inr h

theorem foldl_mergeInto_shape (L : List Edge) :
    ∀ (acc : List Edge) (x : Edge), x ∈ L.foldl mergeInto acc →
      (∃ y ∈ acc, edgeShape x = edgeShape y) ∨ (∃ e ∈ L, edgeShape x = edgeShape e) := by
  induction L with
  | nil =>
    intro acc x hx
    exact Or.inl ⟨x, hx, rfl⟩
  | cons e t ih =>
    intro acc x hx
    rw [List.foldl_cons] at hx
    rcases ih (mergeInto acc e) x hx with ⟨y, hy, hsh⟩ | ⟨e2, he2, hsh⟩
    · rcases mergeInto_shape e acc y hy with ⟨z, hz, hsh2⟩ | rfl
      · exact Or.inl ⟨z, hz, hsh.trans hsh2⟩
      · exact Or.inr ⟨y, List.mem_cons_self _ _, hsh⟩
    · exact Or.inr ⟨e2, List.mem_cons_of_mem _ he2, hsh⟩

theorem foldl_mergeInto_nodup (L : List Edge) :
    ∀ acc : List Edge, (acc.map edgePair).Nodup →
      ((L.foldl mergeInto acc).map edgePair).Nodup := by
  induction L with
  | nil => intro acc h; exact h
  | cons e t ih =>
    intro acc h
    rw [List.foldl_cons]
    exact ih (mergeInto acc e) (mergeInto_nodup_pairs e acc h)

/-- The deduplicated edge list has pairwise-distinct (source, target)
pairs. -/
theorem mergeDuplicateEdges_nodup_pairs (L : List Edge) :
    ((mergeDuplicateEdges L).map edgePair).Nodup :=
  foldl_mergeInto_nodup L [] (by simp)

theorem mergeDuplicateEdges_mem_pair (L : List Edge) (p : String × String) :
    p ∈ (mergeDuplicateEdges L).map edgePair ↔ p ∈ L.map edgePair := by
  rw [mergeDuplicateEdges, foldl_mergeInto_mem_pair]
  simp

theorem mergeDuplicateEdges_pairWeight (L : List Edge) (p : String × String) :
    pairWeight (mergeDuplicateEdges L) p = pairWeight L p := by
  rw [mergeDuplicateEdges, foldl_mergeInto_pairWeight]
  simp [pairWeight]

theorem mergeDuplicateEdges_shape (L : List Edge) (x : Edge)
    (hx : x ∈ mergeDuplicateEdges L) : ∃ e ∈ L, edgeShape x = edgeShape e := by
  rcases foldl_mergeInto_shape L [] x hx with ⟨y, hy, -⟩ | h
  · simp at hy
  · exact h

theorem filter_pair_eq_singleton {l : List Edge} (h : (l.map edgePair).Nodup) {x : Edge}
    (hx : x ∈ l) : l.filter (fun e => decide (edgePair e = edgePair x)) = [x] := by
  induction l with
  | nil => simp at hx
  | cons a as ih =>
    rw [List.map_cons, List.nodup_cons] at h
    rcases List.mem_cons.mp hx with rfl | hmem
    · rw [List.filter_cons, if_pos (by simp)]
      have : as.filter (fun e => decide (edgePair e = edgePair x)) = [] := by
        rw [List.filter_eq_nil_iff]
        intro e he hc
        apply h.1
        rw [show edgePair x = edgePair e from by
          rw [decide_eq_true_eq] at hc
          exact hc.symm]
        exact List.mem_map.mpr ⟨e, he, rfl⟩
      rw [this]
    · rw [List.filter_cons, if_neg (by
        intro hc
        rw [decide_eq_true_eq] at hc
        apply h.1
        rw [hc]
        exact List.mem_map.mpr ⟨x, hmem, rfl⟩)]
      exact ih h.2 hmem

/-- Each merged edge's weight is the total weight its (source, target) pair
carries in the input list. -/
theorem mergeDuplicateEdges_weight (L : List Edge) (x : Edge)
    (hx : x ∈ mergeDuplicateEdges L) :
    x.data.properties.weight = pairWeight L (edgePair x) := by
  have h1 : pairWeight (mergeDuplicateEdges L) (edgePair x) = pairWeight L (edgePair x) :=
    mergeDuplicateEdges_pairWeight L (edgePair x)
  rw [← h1, pairWeight, filter_pair_eq_singleton (mergeDuplicateEdges_nodup_pairs L) hx]
  simp

/-! ### Claim C4 -/

theorem getAllEdges_weight_one (records : List ComponentPath) :
    ∀ e ∈ getAllEdges records, e.data.properties.weight = 1 := by
  intro e he
  obtain ⟨r, hr, rfl⟩ := List.mem_map.mp he
  rfl

theorem pairWeight_ones (l : List Edge) (p : String × String)
    (h : ∀ e ∈ l, e.data.properties.weight = 1) :
    pairWeight l p = (l.filter (fun e => decide (edgePair e = p))).length := by
  induction l with
  | nil => simp [pairWeight]
  | cons x t ih =>
    rw [pairWeight_cons, List.filter_cons]
    by_cases hp : edgePair x = p
    · rw [if_pos hp, if_pos (by simp [hp]), List.length_cons,
        ih (fun e he => h e (List.mem_cons_of_mem _ he)), h x (List.mem_cons_self _ _)]
      omega
    · rw [if_neg hp, if_neg (by simp [hp]),
        ih (fun e he => h e (List.mem_cons_of_mem _ he))]
      omega

/-- Under id-coherence, the deduplicated edge list has, for each
(source, target) pair, exactly one entry per distinct raw element id with
that pair. -/
theorem getAllEdges_filter_length (records : List ComponentPath) (p : String × String)
    (hcoh : IdCoherent (records.flatMap ComponentPath.allEdges)) :
    ((getAllEdges records).filter (fun e => decide (edgePair e = p))).length
      = distinctIdCount records p := by
  unfold getAllEdges distinctIdCount
  rw [List.filter_map, List.length_map]
  show ((dedupByKey Rel.elementId (records.flatMap ComponentPath.allEdges) []).filter
      (fun r => decide (edgePair (Edge.mk (toEdgeData r)) = p))).length = _
  have hlen : ((dedupByKey Rel.elementId (records.flatMap ComponentPath.allEdges) []).filter
      (fun r => decide (edgePair (Edge.mk (toEdgeData r)) = p))).length
      = (((dedupByKey Rel.elementId (records.flatMap ComponentPath.allEdges) []).filter
        (fun r => decide (edgePair (Edge.mk (toEdgeData r)) = p))).map Rel.elementId).length := by
    rw [List.length_map]
  rw [hlen]
  apply List.Perm.length_eq
  rw [List.perm_ext_iff_of_nodup]
  · intro k
    constructor
    · intro hk
      obtain ⟨x, hx, rfl⟩ := List.mem_map.mp hk
      obtain ⟨hxd, hxq⟩ := List.mem_filter.mp hx
      rw [List.mem_dedup]
      exact List.mem_map.mpr ⟨x, List.mem_filter.mpr
        ⟨dedupByKey_subset Rel.elementId _ [] x hxd, hxq⟩, rfl⟩
    · intro hk
      rw [List.mem_dedup] at hk
      obtain ⟨r, hr, rfl⟩ := List.mem_map.mp hk
      obtain ⟨hrs, hrq⟩ := List.mem_filter.mp hr
      have hkd : r.elementId ∈ (dedupByKey Rel.elementId
          (records.flatMap ComponentPath.allEdges) []).map Rel.elementId :=
        (mem_map_key_dedupByKey Rel.elementId _ [] r.elementId).mpr
          ⟨List.mem_map.mpr ⟨r, hrs, rfl⟩, by simp⟩
      obtain ⟨x, hxd, hxk⟩ := List.mem_map.mp hkd
      have hxr : x = r := hcoh x (dedupByKey_subset Rel.elementId _ [] x hxd) r hrs hxk
      exact List.mem_map.mpr ⟨x, List.mem_filter.mpr ⟨hxd, by rw [hxr]; exact hrq⟩, hxk⟩
  · exact List.Nodup.sublist
      (List.Sublist.map Rel.elementId (List.filter_sublist _))
      (nodup_map_key_dedupByKey Rel.elementId _ [])
  · exact List.nodup_dedup _

/-- C4: after deduplication there is at most one edge per (source, target)
pair, and (for id-coherent inputs) its weight equals the number of distinct
raw element ids rewritten to that pair. -/
theorem mergeDuplicateEdges_weight_spec (records : List ComponentPath)
    (hcoh : IdCoherent (records.flatMap ComponentPath.allEdges)) :
    ((mergeDuplicateEdges (getAllEdges records)).map edgePair).Nodup ∧
    ∀ x ∈ mergeDuplicateEdges (getAllEdges records),
      x.data.properties.weight = distinctIdCount records (edgePair x) := by
  refine ⟨mergeDuplicateEdges_nodup_pairs _, ?_⟩
  intro x hx
  rw [mergeDuplicateEdges_weight _ x hx,
    pairWeight_ones _ _ (getAllEdges_weight_one records),
    getAllEdges_filter_length records (edgePair x) hcoh]

/-- C4 witness (Scenario B): two raw dependency edges `A→B` with distinct ids
merge into a single rendered `A→B` edge of weight 2. -/
theorem mergeDuplicateEdges_weight_spec_witness :
    IdCoherent ([permRecord1, permRecord2].flatMap ComponentPath.allEdges) ∧
    (((mergeDuplicateEdges (getAllEdges [permRecord1, permRecord2])).map edgePair).Nodup ∧
    ∀ x ∈ mergeDuplicateEdges (getAllEdges [permRecord1, permRecord2]),
      x.data.properties.weight = distinctIdCount [permRecord1, permRecord2] (edgePair x)) ∧
    (mergeDuplicateEdges (getAllEdges [permRecord1, permRecord2])).map
        (fun e => (edgePair e, e.data.properties.weight)) = [(("A", "B"), 2)] :=
  ⟨by unfold IdCoherent; decide,
    mergeDuplicateEdges_weight_spec [permRecord1, permRecord2] (by unfold IdCoherent; decide),
    by decide⟩

/-! ### Claim C7 -/

theorem mergeAddCycles_flatMap (d : DependencyCycleRender) :
    ∀ (vs : List DependencyCycleRender) (x : DependencyCycle),
      (x ∈ (mergeAddCycles vs d).flatMap (fun v => v.actualCycles)
        ↔ x ∈ vs.flatMap (fun v => v.actualCycles) ∨ x ∈ d.actualCycles) := by
  intro vs
  induction vs with
  | nil =>
    intro x
    simp [mergeAddCycles]
  | cons v vs ih =>
    intro x
    simp only [mergeAddCycles]
    by_cases h : (v.id == d.id) = true
    · rw [if_pos h]
      simp only [List.flatMap_cons, List.mem_append]
      tauto
    · rw [if_neg h]
      simp only [List.flatMap_cons, List.mem_append, ih x]
      tauto

theorem foldl_mergeAddCycles_flatMap (l : List DependencyCycleRender) :
    ∀ (acc : List DependencyCycleRender) (x : DependencyCycle),
      (x ∈ ((l.foldl mergeAddCycles acc).flatMap (fun v => v.actualCycles))
        ↔ x ∈ acc.flatMap (fun v => v.actualCycles) ∨ x ∈ l.flatMap (fun v => v.actualCycles)) := by
  induction l with
  | nil =>
    intro acc x
    simp
  | cons d t ih =>
    intro acc x
    rw [List.foldl_cons, ih (mergeAddCycles acc d) x, mergeAddCycles_flatMap,
      List.flatMap_cons, List.mem_append]
    tauto

/-- C7: a raw dependency cycle is carried into the violation projector's
output (as one of some rendered annotation's actual cycles) if and only if it
is an input cycle whose processed (rewritten and collapsed) path has at least
one step whose id is present in the rendered dependency set; cycles with zero
such matches are dropped. -/
theorem cycleRealization_spec (cycles : List DependencyCycle) (deps : List DepRel)
    (nodes : List VNode) (dep : DependencyCycle) :
    (dep ∈ (extractAndAbstractDependencyCycles cycles deps nodes).flatMap
        (fun v => v.actualCycles))
      ↔ dep ∈ cycles ∧
        (processCycle deps nodes dep).path.any (fun p => depsHas deps p.id) = true := by
  unfold extractAndAbstractDependencyCycles
  rw [foldl_mergeAddCycles_flatMap]
  simp only [List.flatMap_nil, List.not_mem_nil, false_or]
  constructor
  · intro h
    obtain ⟨v, hv, hdep⟩ := List.mem_flatMap.mp h
    obtain ⟨w, hw, rfl⟩ := List.mem_map.mp hv
    obtain ⟨hw1, hpred⟩ := List.mem_filter.mp hw
    obtain ⟨c, hc, rfl⟩ := List.mem_map.mp hw1
    have hdc : dep = c := by
      have : dep ∈ [c] := hdep
      exact List.mem_singleton.mp this
    rw [hdc]
    exact ⟨hc, hpred⟩
  · rintro ⟨hc, hpred⟩
    refine List.mem_flatMap.mpr
      ⟨{ processCycle deps nodes dep with
          id := cycleIndex (processCycle deps nodes dep).node.id
            (processCycle deps nodes dep).path }, ?_, ?_⟩
    · exact List.mem_map.mpr ⟨processCycle deps nodes dep,
        List.mem_filter.mpr ⟨List.mem_map.mpr ⟨dep, hc, rfl⟩, hpred⟩, rfl⟩
    · exact List.mem_singleton.mpr rfl

/-! ### Claim C8 -/

theorem setParentFirst_map_id (targetId parentId : String) :
    ∀ nodes : List Node,
      (setParentFirst nodes targetId parentId).map (fun n => n.data.id)
        = nodes.map (fun n => n.data.id) := by
  intro nodes
  induction nodes with
  | nil => rfl
  | cons n ns ih =>
    simp only [setParentFirst]
    by_cases h : n.data.id = targetId
    · rw [if_pos h]
      simp
    · rw [if_neg h]
      rw [List.map_cons, List.map_cons, ih]

theorem addParentRelationship_map_id (parentEdges : List Edge) :
    ∀ nodes : List Node,
      (addParentRelationship nodes parentEdges).map (fun n => n.data.id)
        = nodes.map (fun n => n.data.id) := by
  induction parentEdges with
  | nil => intro nodes; rfl
  | cons e t ih =>
    intro nodes
    show ((t.foldl (fun ns e => setParentFirst ns e.data.target e.data.source)
      (setParentFirst nodes e.data.target e.data.source))).map _ = _
    rw [show (t.foldl (fun ns e => setParentFirst ns e.data.target e.data.source)
        (setParentFirst nodes e.data.target e.data.source))
        = addParentRelationship (setParentFirst nodes e.data.target e.data.source) t from rfl,
      ih (setParentFirst nodes e.data.target e.data.source), setParentFirst_map_id]

theorem mem_ids_filterNodesByEdges (nodes : List Node) (edges : List Edge) (k : String) :
    (k ∈ (filterNodesByEdges nodes edges).map (fun n => n.data.id)
      ↔ k ∈ nodes.map (fun n => n.data.id)
        ∧ k ∈ edges.flatMap (fun e => [e.data.source, e.data.target])) := by
  unfold filterNodesByEdges
  constructor
  · intro hk
    obtain ⟨n, hn, rfl⟩ := List.mem_map.mp hk
    obtain ⟨hnn, hcont⟩ := List.mem_filter.mp hn
    refine ⟨List.mem_map.mpr ⟨n, hnn, rfl⟩, ?_⟩
    have hmem := List.contains_iff_exists_mem_beq.mp hcont
    obtain ⟨a, ha, hab⟩ := hmem
    have hna : n.data.id = a := beq_iff_eq.mp hab
    rw [hna]
    exact dedupByKey_subset (fun s => s) _ [] _ ha
  · rintro ⟨hk1, hk2⟩
    obtain ⟨n, hn, rfl⟩ := List.mem_map.mp hk1
    refine List.mem_map.mpr ⟨n, List.mem_filter.mpr ⟨hn, ?_⟩, rfl⟩
    apply List.contains_iff_exists_mem_beq.mpr
    refine ⟨n.data.id, ?_, beq_iff_eq.mpr rfl⟩
    have : n.data.id ∈ (dedupByKey (fun s => s)
        (edges.flatMap (fun e => [e.data.source, e.data.target])) []).map (fun s => s) := by
      apply (mem_map_key_dedupByKey (fun s => s) _ [] _).mpr
      refine ⟨?_, by simp⟩
      simpa using hk2
    simpa using this

theorem formatToLPG_edges_subset (records : List ComponentPath) (selectedId : Option String)
    (name : String) (options : BasicGraphFilterOptions) :
    ∀ e ∈ (formatToLPG records selectedId name options).edges,
      e ∈ mergedEdges records options.maxDepth := by
  intro e he
  simp only [formatToLPG] at he
  have h2 : e ∈ (lpgSplit records selectedId options.maxDepth).2 := by
    by_cases hse : options.selfEdges = some false
    · rw [if_pos hse] at he
      exact (List.mem_filter.mp he).1
    · rw [if_neg hse] at he
      exact he
  unfold lpgSplit replaceEdgeWithParentRelationship at h2
  exact (List.mem_filter.mp h2).1

/-- C8 (amended): provided every deduplicated edge's endpoints have a node
among the records' source/target nodes, every rendered edge's source and
target id occur in the rendered node list (no orphan edges). -/
theorem formatToLPG_no_orphans (records : List ComponentPath) (selectedId : Option String)
    (name : String) (options : BasicGraphFilterOptions)
    (h : ∀ e ∈ mergedEdges records options.maxDepth,
      e.data.source ∈ (getAllNodes records selectedId).map (fun n => n.data.id) ∧
      e.data.target ∈ (getAllNodes records selectedId).map (fun n => n.data.id)) :
    ∀ e ∈ (formatToLPG records selectedId name options).edges,
      e.data.source ∈ (formatToLPG records selectedId name options).nodes.map
        (fun n => n.data.id) ∧
      e.data.target ∈ (formatToLPG records selectedId name options).nodes.map
        (fun n => n.data.id) := by
  intro e he
  have hm : e ∈ mergedEdges records options.maxDepth :=
    formatToLPG_edges_subset records selectedId name options e he
  have hids : (formatToLPG records selectedId name options).nodes.map (fun n => n.data.id)
      = (filterNodesByEdges (getAllNodes records selectedId)
          (mergedEdges records options.maxDepth)).map (fun n => n.data.id) := by
    unfold formatToLPG lpgSplit replaceEdgeWithParentRelationship
    exact addParentRelationship_map_id _ _
  rw [hids]
  constructor
  · rw [mem_ids_filterNodesByEdges]
    exact ⟨(h e hm).1, List.mem_flatMap.mpr ⟨e, hm, by simp⟩⟩
  · rw [mem_ids_filterNodesByEdges]
    exact ⟨(h e hm).2, List.mem_flatMap.mpr ⟨e, hm, by simp⟩⟩

/-- C8 (amended) witness: on a record whose dependency edge `A→B` joins the
record's own source and target nodes, the rendered graph has no orphan
edges. -/
theorem formatToLPG_no_orphans_witness :
    (∀ e ∈ mergedEdges [permRecord1] none,
      e.data.source ∈ (getAllNodes [permRecord1] none).map (fun n => n.data.id) ∧
      e.data.target ∈ (getAllNodes [permRecord1] none).map (fun n => n.data.id)) ∧
    ∀ e ∈ (formatToLPG [permRecord1] none "g" {}).edges,
      e.data.source ∈ (formatToLPG [permRecord1] none "g" {}).nodes.map
        (fun n => n.data.id) ∧
      e.data.target ∈ (formatToLPG [permRecord1] none "g" {}).nodes.map
        (fun n => n.data.id) :=
  ⟨by decide, formatToLPG_no_orphans [permRecord1] none "g" {} (by decide)⟩

/-- C8 (counterexample to the claim as stated): a record whose dependency
edge's endpoints are not among any record's source/target nodes yields a
rendered graph with one edge and an empty node list — an orphan edge. -/
theorem formatToLPG_orphan_counterexample :
    (formatToLPG [cexOrphanRecord] none "g" {}).edges.length = 1 ∧
      ((formatToLPG [cexOrphanRecord] none "g" {}).edges.all (fun e =>
        ((formatToLPG [cexOrphanRecord] none "g" {}).nodes.map
          (fun n => n.data.id)).contains e.data.source &&
        ((formatToLPG [cexOrphanRecord] none "g" {}).nodes.map
          (fun n => n.data.id)).contains e.data.target)) = false := by
  decide

/-! ### Claim C9 -/

theorem lookup_buildMap_ext (l1 l2 : List (String × String))
    (hmem : ∀ p : String × String, p ∈ l1 ↔ p ∈ l2)
    (hconf : ∀ p ∈ l1, ∀ q ∈ l1, p.1 = q.1 → p.2 = q.2) (x : String) :
    List.lookup x (buildMap l1) = List.lookup x (buildMap l2) := by
  rw [lookup_buildMap, lookup_buildMap]
  cases h1 : List.lookup x l1.reverse with
  | none =>
    cases h2 : List.lookup x l2.reverse with
    | none => rfl
    | some w =>
      exfalso
      have hw : (x, w) ∈ l1 := (hmem _).mpr (List.mem_reverse.mp (mem_of_lookup_some h2))
      obtain ⟨w2, hw2⟩ := lookup_isSome_of_mem (List.mem_reverse.mpr hw)
      rw [h1] at hw2
      exact Option.noConfusion hw2
  | some v =>
    have hv : (x, v) ∈ l2 := (hmem _).mp (List.mem_reverse.mp (mem_of_lookup_some h1))
    obtain ⟨w, hw⟩ := lookup_isSome_of_mem (List.mem_reverse.mpr hv)
    rw [hw]
    have hwmem : (x, w) ∈ l1 := (hmem _).mpr (List.mem_reverse.mp (mem_of_lookup_some hw))
    have hwv : w = v := hconf (x, w) hwmem (x, v) ((hmem _).mpr hv) rfl
    rw [hwv]

theorem applyMap_buildMap_ext (l1 l2 : List (String × String))
    (hmem : ∀ p : String × String, p ∈ l1 ↔ p ∈ l2)
    (hconf : ∀ p ∈ l1, ∀ q ∈ l1, p.1 = q.1 → p.2 = q.2) (x : String) :
    applyMap (buildMap l1) x = applyMap (buildMap l2) x := by
  unfold applyMap
  rw [lookup_buildMap_ext l1 l2 hmem hconf x]

theorem processedRecords_some (records : List ComponentPath) (d : Nat) :
    processedRecords records (some d)
      = records.map (fun r =>
          { trimRecord r d with
            dependencyEdges := (trimRecord r d).dependencyEdges.map
              (rewriteRel (getAbstractionMap records d)) }) := by
  show applyAbstraction (records.map (fun r => trimRecord r d)) (getAbstractionMap records d) = _
  unfold applyAbstraction
  rw [List.map_map]
  rfl

theorem processedRecords_perm (rs1 rs2 : List ComponentPath) (md : Option Nat)
    (hperm : rs1.Perm rs2)
    (hconf : ∀ p ∈ mapInsertions rs1 md, ∀ q ∈ mapInsertions rs1 md, p.1 = q.1 → p.2 = q.2) :
    (processedRecords rs1 md).Perm (processedRecords rs2 md) := by
  cases md with
  | none => exact hperm
  | some d =>
    rw [processedRecords_some, processedRecords_some]
    have hmemins : ∀ p : String × String,
        p ∈ mapInsertions rs2 (some d) ↔ p ∈ mapInsertions rs1 (some d) :=
      fun p => (List.Perm.flatMap_right (fun r => recordInsertions r d) hperm).mem_iff.symm
    have happ : ∀ x, applyMap (getAbstractionMap rs2 d) x
        = applyMap (getAbstractionMap rs1 d) x :=
      applyMap_buildMap_ext (mapInsertions rs2 (some d)) (mapInsertions rs1 (some d)) hmemins
        (fun p hp q hq => hconf p ((hmemins p).mp hp) q ((hmemins q).mp hq))
    have hfun : ∀ r : ComponentPath,
        ({ trimRecord r d with
            dependencyEdges := (trimRecord r d).dependencyEdges.map
              (rewriteRel (getAbstractionMap rs2 d)) } : ComponentPath)
          = { trimRecord r d with
              dependencyEdges := (trimRecord r d).dependencyEdges.map
                (rewriteRel (getAbstractionMap rs1 d)) } := by
      intro r
      have hdeps : (trimRecord r d).dependencyEdges.map (rewriteRel (getAbstractionMap rs2 d))
          = (trimRecord r d).dependencyEdges.map (rewriteRel (getAbstractionMap rs1 d)) := by
        apply List.map_congr_left
        intro e _
        unfold rewriteRel
        rw [happ e.startNodeElementId, happ e.endNodeElementId]
      rw [hdeps]
    rw [List.map_congr_left (fun r _ => hfun r)]
    exact hperm.map _

theorem edgeStream_perm (rs1 rs2 : List ComponentPath) (md : Option Nat)
    (hperm : rs1.Perm rs2)
    (hconf : ∀ p ∈ mapInsertions rs1 md, ∀ q ∈ mapInsertions rs1 md, p.1 = q.1 → p.2 = q.2) :
    (edgeStream rs1 md).Perm (edgeStream rs2 md) :=
  List.Perm.flatMap_right ComponentPath.allEdges (processedRecords_perm rs1 rs2 md hperm hconf)

theorem dedupByKey_perm {α : Type} (key : α → String) (S1 S2 : List α)
    (hperm : S1.Perm S2) (hcoh : ∀ a ∈ S1, ∀ b ∈ S1, key a = key b → a = b) :
    (dedupByKey key S1 []).Perm (dedupByKey key S2 []) := by
  have hcoh2 : ∀ a ∈ S2, ∀ b ∈ S2, key a = key b → a = b :=
    fun a ha b hb => hcoh a (hperm.mem_iff.mpr ha) b (hperm.mem_iff.mpr hb)
  rw [List.perm_ext_iff_of_nodup
    (List.Nodup.of_map key (nodup_map_key_dedupByKey key S1 []))
    (List.Nodup.of_map key (nodup_map_key_dedupByKey key S2 []))]
  intro x
  constructor
  · intro hx
    exact mem_dedupByKey_of_coherent key S2 [] x hcoh2
      (hperm.mem_iff.mp (dedupByKey_subset key S1 [] x hx)) (by simp)
  · intro hx
    exact mem_dedupByKey_of_coherent key S1 [] x hcoh
      (hperm.mem_iff.mpr (dedupByKey_subset key S2 [] x hx)) (by simp)

theorem getAllEdges_perm (rs1 rs2 : List ComponentPath) (md : Option Nat)
    (hperm : rs1.Perm rs2)
    (hconf : ∀ p ∈ mapInsertions rs1 md, ∀ q ∈ mapInsertions rs1 md, p.1 = q.1 → p.2 = q.2)
    (hcoh : IdCoherent (edgeStream rs1 md)) :
    (getAllEdges (processedRecords rs1 md)).Perm (getAllEdges (processedRecords rs2 md)) :=
  (dedupByKey_perm Rel.elementId (edgeStream rs1 md) (edgeStream rs2 md)
    (edgeStream_perm rs1 rs2 md hperm hconf) hcoh).map _

theorem pairWeight_perm {L1 L2 : List Edge} (h : L1.Perm L2) (p : String × String) :
    pairWeight L1 p = pairWeight L2 p :=
  List.Perm.sum_eq ((h.filter _).map _)

theorem exists_mem_iff {α : Type} {A B : List α} (h : ∀ x, x ∈ A ↔ x ∈ B) (φ : α → Prop) :
    (∃ x ∈ A, φ x) ↔ ∃ x ∈ B, φ x := by
  constructor
  · rintro ⟨x, hx, hφ⟩
    exact ⟨x, (h x).mp hx, hφ⟩
  · rintro ⟨x, hx, hφ⟩
    exact ⟨x, (h x).mpr hx, hφ⟩

theorem getAllNodes_ids_mem (records : List ComponentPath) (sel : Option String) (i : String) :
    (i ∈ (getAllNodes records sel).map (fun n => n.data.id)
      ↔ i ∈ (records.flatMap (fun r => [r.source, r.target])).map N4jNode.elementId) := by
  unfold getAllNodes
  rw [List.map_map]
  rw [show ((fun n : Node => n.data.id) ∘ fun n => Node.mk (formatNeo4jNodeToNodeData n sel))
      = N4jNode.elementId from rfl]
  rw [mem_map_key_dedupByKey N4jNode.elementId _ []]
  simp

theorem mem_endpoints_iff (edges : List Edge) (i : String) :
    (i ∈ edges.flatMap (fun e => [e.data.source, e.data.target])
      ↔ ∃ p ∈ edges.map edgePair, i = p.1 ∨ i = p.2) := by
  rw [List.mem_flatMap]
  constructor
  · rintro ⟨e, he, hi⟩
    refine ⟨edgePair e, List.mem_map.mpr ⟨e, he, rfl⟩, ?_⟩
    rcases List.mem_cons.mp hi with h1 | h1
    · exact Or.inl h1
    · exact Or.inr (List.mem_singleton.mp h1)
  · rintro ⟨p, hp, hi⟩
    obtain ⟨e, he, rfl⟩ := List.mem_map.mp hp
    refine ⟨e, he, ?_⟩
    rcases hi with h1 | h1
    · rw [h1]
      exact List.mem_cons_self _ _
    · rw [h1]
      exact List.mem_cons_of_mem _ (List.mem_singleton.mpr rfl)

/-- Transfer of an output (source, target, weight) triple between the merged,
filtered renders of two permutation-equivalent deduplicated edge lists, for
any keep-predicate determined by (pair, interaction). -/
theorem stw_mem_filter_merge (L1 L2 : List Edge) (hLp : L1.Perm L2)
    (hint : ∀ a ∈ L1, ∀ b ∈ L1, edgePair a = edgePair b →
      a.data.interaction = b.data.interaction)
    (pred : Edge → Bool)
    (hpred : ∀ a b : Edge, edgePair a = edgePair b →
      a.data.interaction = b.data.interaction → pred a = pred b)
    (s t : String) (w : Nat)
    (hmem : (s, t, w) ∈ ((mergeDuplicateEdges L1).filter pred).map stwOf) :
    (s, t, w) ∈ ((mergeDuplicateEdges L2).filter pred).map stwOf := by
  obtain ⟨x, hx, hstx⟩ := List.mem_map.mp hmem
  obtain ⟨hxm, hxp⟩ := List.mem_filter.mp hx
  obtain ⟨e, heL, hshe⟩ := mergeDuplicateEdges_shape L1 x hxm
  have hxs : x.data.source = s := congrArg (fun q => q.1) hstx
  have hxt : x.data.target = t := congrArg (fun q => q.2.1) hstx
  have hxw : x.data.properties.weight = w := congrArg (fun q => q.2.2) hstx
  have hpx : edgePair x = (s, t) := by
    unfold edgePair
    rw [hxs, hxt]
  have hes : x.data.source = e.data.source := congrArg (fun q => q.2.1) hshe
  have het : x.data.target = e.data.target := congrArg (fun q => q.2.2.1) hshe
  have hei : x.data.interaction = e.data.interaction := congrArg (fun q => q.2.2.2) hshe
  have hpe : edgePair e = (s, t) := by
    unfold edgePair
    rw [← hes, ← het, hxs, hxt]
  have hmem2 : (s, t) ∈ (mergeDuplicateEdges L2).map edgePair :=
    (mergeDuplicateEdges_mem_pair L2 (s, t)).mpr
      (List.mem_map.mpr ⟨e, hLp.mem_iff.mp heL, hpe⟩)
  obtain ⟨y, hym, hyp⟩ := List.mem_map.mp hmem2
  have hyw : y.data.properties.weight = w := by
    rw [mergeDuplicateEdges_weight L2 y hym, hyp, ← pairWeight_perm hLp (s, t), ← hpx,
      ← mergeDuplicateEdges_weight L1 x hxm, hxw]
  obtain ⟨e2, he2L, hshe2⟩ := mergeDuplicateEdges_shape L2 y hym
  have he2L1 : e2 ∈ L1 := hLp.mem_iff.mpr he2L
  have hys : y.data.source = e2.data.source := congrArg (fun q => q.2.1) hshe2
  have hyt : y.data.target = e2.data.target := congrArg (fun q => q.2.2.1) hshe2
  have hyi : y.data.interaction = e2.data.interaction := congrArg (fun q => q.2.2.2) hshe2
  have hpe2 : edgePair e2 = (s, t) := by
    unfold edgePair
    rw [← hys, ← hyt]
    rw [show (y.data.source, y.data.target) = edgePair y from rfl, hyp]
  have hie : e2.data.interaction = e.data.interaction :=
    hint e2 he2L1 e heL (hpe2.trans hpe.symm)
  have hiy : y.data.interaction = x.data.interaction := by
    rw [hyi, hie, ← hei]
  have hpyx : edgePair y = edgePair x := by
    rw [hyp, hpx]
  have hpy : pred y = true := by
    rw [hpred y x hpyx hiy]
    exact hxp
  refine List.mem_map.mpr ⟨y, List.mem_filter.mpr ⟨hym, hpy⟩, ?_⟩
  unfold stwOf
  have hys2 : y.data.source = s := congrArg (fun q => q.1) hyp
  have hyt2 : y.data.target = t := congrArg (fun q => q.2) hyp
  rw [hys2, hyt2, hyw]

theorem lpgSplit_snd (records : List ComponentPath) (sel : Option String) (md : Option Nat) :
    (lpgSplit records sel md).2
      = (mergedEdges records md).filter (fun e => e.data.interaction != "contains") := rfl

/-- The rendered edge list is the deduplicated list filtered by the
containment split, and additionally by the self-edge filter when `selfEdges`
is exactly `false`. -/
theorem formatToLPG_edges_eq (records : List ComponentPath) (sel : Option String)
    (name : String) (opts : BasicGraphFilterOptions) :
    (formatToLPG records sel name opts).edges
      = if opts.selfEdges = some false
        then (mergeDuplicateEdges (getAllEdges (processedRecords records opts.maxDepth))).filter
          (fun e => (e.data.source != e.data.target) && (e.data.interaction != "contains"))
        else (mergeDuplicateEdges (getAllEdges (processedRecords records opts.maxDepth))).filter
          (fun e => e.data.interaction != "contains") := by
  simp only [formatToLPG, lpgSplit_snd]
  by_cases h : opts.selfEdges = some false
  · rw [if_pos h, if_pos h]
    show filterSelfEdges ((mergedEdges records opts.maxDepth).filter _) = _
    unfold filterSelfEdges
    rw [List.filter_filter]
    rfl
  · rw [if_neg h, if_neg h]
    rfl

theorem formatToLPG_node_ids (records : List ComponentPath) (sel : Option String)
    (name : String) (opts : BasicGraphFilterOptions) :
    (formatToLPG records sel name opts).nodes.map (fun n => n.data.id)
      = (filterNodesByEdges (getAllNodes records sel)
          (mergedEdges records opts.maxDepth)).map (fun n => n.data.id) := by
  show (addParentRelationship (filterNodesByEdges (getAllNodes records sel)
      (mergedEdges records opts.maxDepth))
      ((mergedEdges records opts.maxDepth).filter
        (fun e => e.data.interaction == "contains"))).map (fun n => n.data.id) = _
  exact addParentRelationship_map_id _ _

/-- C9 (amended): for permuted pre-processed inputs — provided the
abstraction-map insertions are conflict-free, the rewritten edge stream is
id-coherent, and edges sharing a (source, target) pair share an interaction
type — the rendered graphs have the same node id set and the same edge
(source, target, weight) set; only edge ids (first-seen tie-breaks) may
differ. -/
theorem formatToLPG_permutation_spec (rs1 rs2 : List ComponentPath) (sel : Option String)
    (n1 n2 : String) (opts : BasicGraphFilterOptions)
    (hperm : rs1.Perm rs2)
    (hconf : ∀ p ∈ mapInsertions rs1 opts.maxDepth, ∀ q ∈ mapInsertions rs1 opts.maxDepth,
      p.1 = q.1 → p.2 = q.2)
    (hcoh : IdCoherent (edgeStream rs1 opts.maxDepth))
    (hint : ∀ a ∈ getAllEdges (processedRecords rs1 opts.maxDepth),
      ∀ b ∈ getAllEdges (processedRecords rs1 opts.maxDepth),
      edgePair a = edgePair b → a.data.interaction = b.data.interaction) :
    (∀ i : String,
      i ∈ (formatToLPG rs1 sel n1 opts).nodes.map (fun n => n.data.id)
        ↔ i ∈ (formatToLPG rs2 sel n2 opts).nodes.map (fun n => n.data.id)) ∧
    (∀ s t : String, ∀ w : Nat,
      ((s, t, w) ∈ (formatToLPG rs1 sel n1 opts).edges.map stwOf
        ↔ (s, t, w) ∈ (formatToLPG rs2 sel n2 opts).edges.map stwOf)) := by
  have hLp : (getAllEdges (processedRecords rs1 opts.maxDepth)).Perm
      (getAllEdges (processedRecords rs2 opts.maxDepth)) :=
    getAllEdges_perm rs1 rs2 opts.maxDepth hperm hconf hcoh
  have hint2 : ∀ a ∈ getAllEdges (processedRecords rs2 opts.maxDepth),
      ∀ b ∈ getAllEdges (processedRecords rs2 opts.maxDepth),
      edgePair a = edgePair b → a.data.interaction = b.data.interaction :=
    fun a ha b hb => hint a (hLp.mem_iff.mpr ha) b (hLp.mem_iff.mpr hb)
  constructor
  · intro i
    rw [formatToLPG_node_ids, formatToLPG_node_ids, mem_ids_filterNodesByEdges,
      mem_ids_filterNodesByEdges]
    have hA : i ∈ (getAllNodes rs1 sel).map (fun n => n.data.id)
        ↔ i ∈ (getAllNodes rs2 sel).map (fun n => n.data.id) := by
      rw [getAllNodes_ids_mem, getAllNodes_ids_mem]
      exact ((List.Perm.flatMap_right (fun r => [r.source, r.target]) hperm).map
        N4jNode.elementId).mem_iff
    have hB : i ∈ (mergedEdges rs1 opts.maxDepth).flatMap
          (fun e => [e.data.source, e.data.target])
        ↔ i ∈ (mergedEdges rs2 opts.maxDepth).flatMap
          (fun e => [e.data.source, e.data.target]) := by
      rw [mem_endpoints_iff, mem_endpoints_iff]
      apply exists_mem_iff
      intro p
      show p ∈ (mergeDuplicateEdges (getAllEdges (processedRecords rs1 opts.maxDepth))).map
          edgePair
        ↔ p ∈ (mergeDuplicateEdges (getAllEdges (processedRecords rs2 opts.maxDepth))).map
          edgePair
      rw [mergeDuplicateEdges_mem_pair, mergeDuplicateEdges_mem_pair]
      exact (hLp.map edgePair).mem_iff
    exact and_congr hA hB
  · intro s t w
    rw [formatToLPG_edges_eq, formatToLPG_edges_eq]
    by_cases h : opts.selfEdges = some false
    · rw [if_pos h, if_pos h]
      have hpred : ∀ a b : Edge, edgePair a = edgePair b →
          a.data.interaction = b.data.interaction →
          ((a.data.source != a.data.target) && (a.data.interaction != "contains"))
            = ((b.data.source != b.data.target) && (b.data.interaction != "contains")) := by
        intro a b hp hi
        have hs : a.data.source = b.data.source := congrArg Prod.fst hp
        have ht : a.data.target = b.data.target := congrArg Prod.snd hp
        rw [hs, ht, hi]
      exact ⟨stw_mem_filter_merge _ _ hLp hint _ hpred s t w,
        stw_mem_filter_merge _ _ hLp.symm hint2 _ hpred s t w⟩
    · rw [if_neg h, if_neg h]
      have hpred : ∀ a b : Edge, edgePair a = edgePair b →
          a.data.interaction = b.data.interaction →
          (a.data.interaction != "contains") = (b.data.interaction != "contains") := by
        intro a b _ hi
        rw [hi]
      exact ⟨stw_mem_filter_merge _ _ hLp hint _ hpred s t w,
        stw_mem_filter_merge _ _ hLp.symm hint2 _ hpred s t w⟩

/-- C9 (counterexample to the claim as stated): the two orders of the same
two records (a permutation) render single edges with the same endpoints and
weight but different ids (`e1` vs `e2`, the first-seen tie-break), so the
edge sets compared with ids differ. -/
theorem formatToLPG_permutation_counterexample :
    List.Perm [permRecord1, permRecord2] [permRecord2, permRecord1] ∧
      ((formatToLPG [permRecord1, permRecord2] none "g" {}).edges.map
        (fun e => (e.data.id, e.data.source, e.data.target, e.data.properties.weight))
          = [("e1", "A", "B", 2)]) ∧
      ((formatToLPG [permRecord2, permRecord1] none "g" {}).edges.map
        (fun e => (e.data.id, e.data.source, e.data.target, e.data.properties.weight))
          = [("e2", "A", "B", 2)]) := by
  refine ⟨by decide, rfl, rfl⟩

/-- C9 (amended) witness: on the two orders of the two concrete records the
hypotheses hold and the rendered node id sets and edge (source, target,
weight) sets coincide. -/
theorem formatToLPG_permutation_spec_witness :
    List.Perm [permRecord1, permRecord2] [permRecord2, permRecord1] ∧
    IdCoherent (edgeStream [permRecord1, permRecord2]
      ({} : BasicGraphFilterOptions).maxDepth) ∧
    ((∀ i : String,
      i ∈ (formatToLPG [permRecord1, permRecord2] none "g" {}).nodes.map
          (fun n => n.data.id)
        ↔ i ∈ (formatToLPG [permRecord2, permRecord1] none "g" {}).nodes.map
          (fun n => n.data.id)) ∧
    (∀ s t : String, ∀ w : Nat,
      ((s, t, w) ∈ (formatToLPG [permRecord1, permRecord2] none "g" {}).edges.map stwOf
        ↔ (s, t, w) ∈ (formatToLPG [permRecord2, permRecord1] none "g" {}).edges.map
          stwOf))) :=
  ⟨by decide, by unfold IdCoherent; decide,
    formatToLPG_permutation_spec [permRecord1, permRecord2] [permRecord2, permRecord1]
      none "g" "g" {} (by decide) (by intro p hp; exact absurd hp (by simp [mapInsertions]))
      (by unfold IdCoherent; decide) (by decide)⟩

end Arvisan
